import Mathlib

/-!
Verification development for the farm record-keeping repository.

The definitions below are shallow embeddings of the TypeScript source:
  * the tabular row parser `parseSheetData` and the replanting-note
    extractor `parseReplantingNotes` (sync route),
  * the qualifiers block parser `parseQualifiersSheet` (lib/parse-qualifiers.ts),
  * the store mutations `syncSheetData`, `syncQualifiers`,
    `syncUniversalQualifiers` (convex/schema.ts), with the document store
    modelled as explicit lists of records,
  * the analytics helpers `normalizeLabel`, `isPlanningQuestion`,
    `getPlanningBucket`, `startOfWeekUtc`, `dateKey` and the aggregation
    query `getAnalyticsOverview` (convex/schema.ts).

JavaScript string semantics are modelled explicitly: `jsTrim` trims the
JS whitespace class, `strIncludes` is `String.prototype.includes`,
`jsOr` is `a || b` on strings, and number arithmetic that the claims
touch is carried out in `Int`/`Nat`/`Rat` (timestamps are integral
millisecond counts; the rate computations are modelled in `Rat`).
-/

/-- The JavaScript whitespace class (the set matched by `\s` and used by
`String.prototype.trim`). -/
def jsSpace (c : Char) : Bool :=
  c = ' ' || c = '\t' || c = '\n' || c = '\x0b' || c = '\x0c' || c = '\r' ||
  c.toNat = 0xa0 || c.toNat = 0x1680 ||
  (0x2000 ≤ c.toNat && c.toNat ≤ 0x200a) ||
  c.toNat = 0x2028 || c.toNat = 0x2029 || c.toNat = 0x202f ||
  c.toNat = 0x205f || c.toNat = 0x3000 || c.toNat = 0xfeff

/-- `String.prototype.trim`. -/
def jsTrim (s : String) : String :=
  String.mk (((s.toList.dropWhile jsSpace).reverse.dropWhile jsSpace).reverse)

/-- `String.prototype.toLowerCase` (ASCII case folding). -/
def lowerStr (s : String) : String :=
  String.mk (s.toList.map Char.toLower)

/-- `needle` occurs as a leading segment of `hay`. -/
def leadsWith : List Char → List Char → Bool
  | _, [] => true
  | [], _ :: _ => false
  | h :: t, n :: ns => h = n && leadsWith t ns

/-- `needle` occurs contiguously somewhere in `hay`. -/
def listHasSub (hay needle : List Char) : Bool :=
  match hay with
  | [] => needle.isEmpty
  | _ :: t => leadsWith hay needle || listHasSub t needle

/-- `String.prototype.includes`. -/
def strIncludes (s sub : String) : Bool :=
  listHasSub s.toList sub.toList

/-- JavaScript `a || b` on strings (empty string is falsy). -/
def jsOr (a b : String) : String :=
  if a = "" then b else a

/-- The substring of the character list `cs` spanning indices `[a, b)`. -/
def sliceStr (cs : List Char) (a b : Nat) : String :=
  String.mk ((cs.drop a).take (b - a))

/-- Splitting worker: scans left to right, emitting a fragment whenever the
(non-empty) separator occurs; the fuel is an upper bound on the number of
characters still to scan. -/
def splitOnFuel (sep : List Char) : Nat → List Char → List Char →
    List (List Char)
  | _, acc, [] => [acc.reverse]
  | 0, acc, _ :: _ => [acc.reverse]
  | fuel + 1, acc, c :: t =>
    if leadsWith (c :: t) sep then
      acc.reverse :: splitOnFuel sep fuel [] (t.drop (sep.length - 1))
    else splitOnFuel sep fuel (c :: acc) t

/-- `String.prototype.split` with a non-empty string separator (used with
separators `":"`, `"/"`, `" / "`, `","`, `"-"`). -/
def strSplitOn (s sep : String) : List String :=
  if sep = "" then [s]
  else (splitOnFuel sep.toList s.toList.length [] s.toList).map String.mk

/-- `String.prototype.startsWith`. -/
def strStartsWith (s pre : String) : Bool :=
  leadsWith s.toList pre.toList

/-- `String.prototype.endsWith`. -/
def strEndsWith (s suf : String) : Bool :=
  leadsWith s.toList.reverse suf.toList.reverse

/-- `String.prototype.slice(n)` for a non-negative index. -/
def strDrop (s : String) (n : Nat) : String :=
  String.mk (s.toList.drop n)

/-- Lexicographic comparison of character lists by code point (the order
used by the default JS array sort on strings). -/
def charListLe : List Char → List Char → Bool
  | [], _ => true
  | _ :: _, [] => false
  | a :: as, b :: bs => if a = b then charListLe as bs else decide (a < b)

/-- Lexicographic string comparison. -/
def strLe (a b : String) : Bool :=
  charListLe a.toList b.toList

/-- Numeric value of a list of ASCII digits. -/
def listToNat (cs : List Char) : Nat :=
  cs.foldl (fun n c => n * 10 + (c.toNat - 48)) 0

/-- Inserts `a` into an already sorted list, in front of the first element
it compares less-or-equal to (so in front of elements equal to it, which
keeps earlier-processed elements of equal rank first). -/
def insertSorted {α : Type} (le : α → α → Bool) (a : α) : List α → List α
  | [] => [a]
  | b :: t => if le a b then a :: b :: t else b :: insertSorted le a t

/-- Stable sort by a boolean total preorder.  `Array.prototype.sort` is
required to be stable, and a stable sort's output is uniquely determined by
the comparator, so this models every `.sort(...)` call of the source. -/
def stableSortBy {α : Type} (le : α → α → Bool) (l : List α) : List α :=
  l.foldr (insertSorted le) []

/-! ### The replanting-note regular expressions

`parseReplantingNotes` in the sync route tests the notes cell against
`/(?:(.+?)\s+)?replaced\s+(?:with|by)\s+(.+?)(?:\s+in\s+|$)/i` and, failing
that, `/replanted\s+with\s+(.+?)(?:\s+in\s+|$)/i`.  The helpers below model
the backtracking search of those two patterns over a character list:
`.` is any character except a line terminator, `\s` is `jsSpace`, literals
are matched case-insensitively, lazy groups take the shortest extent whose
continuation matches, and the whole match starts at the leftmost possible
position.  A `\s+` that is immediately followed by a literal letter can only
match the maximal whitespace run (a shorter run would leave a whitespace
character where the letter must be), which the helpers exploit; the `\s+`
that precedes a lazy `(.+?)` is enumerated longest-first as the engine does. -/

/-- A character the regex metacharacter `.` matches (anything but a line
terminator). -/
def dotChar (c : Char) : Bool :=
  !(c = '\n' || c = '\r' || c.toNat = 0x2028 || c.toNat = 0x2029)

/-- Length of the whitespace run starting at index `i`. -/
def wsRunLen (cs : List Char) (i : Nat) : Nat :=
  ((cs.drop i).takeWhile jsSpace).length

/-- End index of the (non-empty) whitespace run starting at `i`, if any. -/
def wsRunEnd (cs : List Char) (i : Nat) : Option Nat :=
  if wsRunLen cs i = 0 then none else some (i + wsRunLen cs i)

/-- The lowercase literal `w` matches at index `i` (case-insensitive). -/
def litAt (cs : List Char) (i : Nat) (w : String) : Bool :=
  leadsWith ((cs.drop i).map Char.toLower) w.toList

/-- All characters with indices in `[a, b)` are matched by `.`. -/
def allDots (cs : List Char) (a b : Nat) : Bool :=
  ((cs.drop a).take (b - a)).all dotChar

/-- The tail `(?:\s+in\s+|$)` matches at index `p`. -/
def tailOk (cs : List Char) (p : Nat) : Bool :=
  (match wsRunEnd cs p with
   | some j => litAt cs j "in" && (wsRunEnd cs (j + 2)).isSome
   | none => false) ||
  p = cs.length

/-- Smallest end index `p > q` such that the lazy group `(.+?)` spans `[q, p)`
and the tail matches at `p`. -/
def findG2End (cs : List Char) (q : Nat) : Option Nat :=
  (List.range (cs.length - q)).findSome? (fun k =>
    let p := q + k + 1
    if allDots cs q p && tailOk cs p then some p else none)

/-- Matches `\s+(.+?)(?:\s+in\s+|$)` starting at `i`, trying the `\s+`
longest-first; returns the span of the lazy group. -/
def matchAfterConn (cs : List Char) (i : Nat) : Option (Nat × Nat) :=
  (List.range (wsRunLen cs i)).findSome? (fun t =>
    let q := i + (wsRunLen cs i - t)
    (findG2End cs q).map (fun p => (q, p)))

/-- Matches `\s+(?:with|by)\s+(.+?)(?:\s+in\s+|$)` starting just after the
literal `replaced` at index `i`; returns the span of the capture. -/
def matchAfterReplaced (cs : List Char) (i : Nat) : Option (Nat × Nat) :=
  match wsRunEnd cs i with
  | none => none
  | some j =>
    if litAt cs j "with" then matchAfterConn cs (j + 4)
    else if litAt cs j "by" then matchAfterConn cs (j + 2)
    else none

/-- Attempts the first replanting pattern at start position `s`: the optional
leading group is tried first (shortest extent first), then the variant with
the group absent. -/
def tryReplacedAt (cs : List Char) (s : Nat) :
    Option (Option (Nat × Nat) × (Nat × Nat)) :=
  match (List.range (cs.length - s)).findSome? (fun k =>
    let e := s + k + 1
    if allDots cs s e then
      match wsRunEnd cs e with
      | some f =>
        if litAt cs f "replaced" then
          (matchAfterReplaced cs (f + 8)).map (fun g2 => ((s, e), g2))
        else none
      | none => none
    else none) with
  | some (g1, g2) => some (some g1, g2)
  | none =>
    if litAt cs s "replaced" then
      (matchAfterReplaced cs (s + 8)).map (fun g2 => (none, g2))
    else none

/-- Leftmost match of the first replanting pattern. -/
def matchReplaced (cs : List Char) :
    Option (Option (Nat × Nat) × (Nat × Nat)) :=
  (List.range (cs.length + 1)).findSome? (fun s => tryReplacedAt cs s)

/-- Whether `/replanted\s+with\s+(.+?)(?:\s+in\s+|$)/i` matches anywhere. -/
def matchReplanted (cs : List Char) : Bool :=
  (List.range (cs.length + 1)).any (fun s =>
    litAt cs s "replanted" &&
    (match wsRunEnd cs (s + 9) with
     | some j => litAt cs j "with" && (matchAfterConn cs (j + 4)).isSome
     | none => false))

/-- Result shape of `parseReplantingNotes`: the two optional original-crop
fields and the note text. -/
structure ReplantInfo where
  originalCrop : Option String
  originalVariety : Option String
  replantingNote : String
  deriving DecidableEq, Repr

/-- `parseReplantingNotes` from the sync route: extracts replanting
information from a notes cell, or `none` when neither pattern matches. -/
def parseReplantingNotes (notes : String) : Option ReplantInfo :=
  if notes = "" then none
  else
    let cs := notes.toList
    match matchReplaced cs with
    | some (g1, _) =>
      let originalText := g1.map (fun ab => jsTrim (sliceStr cs ab.1 ab.2))
      let parts : Option String × Option String :=
        match originalText with
        | some ot =>
          if strIncludes ot ":" then
            (some (jsTrim ((strSplitOn ot ":").getD 0 "")),
             some (jsTrim ((strSplitOn ot ":").getD 1 "")))
          else (some ot, some "")
        | none => (none, some "")
      some { originalCrop := some (jsOr (parts.1.getD "") ""),
             originalVariety := some (jsOr (parts.2.getD "") ""),
             replantingNote := notes }
    | none =>
      if matchReplanted cs then
        some { originalCrop := none, originalVariety := none,
               replantingNote := notes }
      else none

/-! ### The tabular row parser (`parseSheetData`, sync route) -/

/-- Snapshot of the crop a bed previously held (`replantedFrom`). -/
structure ReplantedFrom where
  crop : String
  variety : String
  date : String
  notes : String
  deriving DecidableEq, Repr

/-- One parsed planting record as produced by `parseSheetData`. -/
structure ParsedRec where
  field : String
  bed : String
  crop : String
  variety : String
  trays : String
  rows : String
  date : String
  notes : String
  location : Option String := none
  replantedFrom : Option ReplantedFrom := none
  deriving DecidableEq, Repr

/-- Splits a crop-variety cell on `:`; absent colon means empty variety. -/
def splitCropVariety (cropPart : String) : String × String :=
  if strIncludes cropPart ":" then
    (jsTrim ((strSplitOn cropPart ":").getD 0 ""),
     jsTrim ((strSplitOn cropPart ":").getD 1 ""))
  else (jsOr cropPart "", "")

/-- Whether the multi-crop sub-entry at index `i` has a non-empty resolved
crop name (only then is a record pushed). -/
def multiCropKeep (cropParts : List String) (i : Nat) : Bool :=
  jsTrim (splitCropVariety (cropParts.getD i "")).1 ≠ ""

/-- The record built for the multi-crop sub-entry at index `i`: its own
crop-variety split, the `traysParts[i] || traysParts[0] || ""` trays token,
and the bed/rows/date/notes of the parent row. -/
def mkMultiCropRec (sheetName bed rowsCount date notes : String)
    (cropParts traysParts : List String) (i : Nat) : ParsedRec :=
  let cropPart := cropParts.getD i ""
  let trayPart := jsOr (traysParts.getD i "") (jsOr (traysParts.getD 0 "") "")
  let cv := splitCropVariety cropPart
  { field := sheetName, bed := jsOr bed "",
    crop := jsTrim cv.1, variety := jsTrim cv.2,
    trays := trayPart, rows := jsOr rowsCount "",
    date := jsOr date "", notes := jsOr notes "" }

/-- Parses one data row of a field sheet into zero or more records,
mirroring the body of the row loop in `parseSheetData`. -/
def parseRow (sheetName : String) (row : List String) : List ParsedRec :=
  let bed := row.getD 0 ""
  let cropVariety := row.getD 1 ""
  let trays := row.getD 2 ""
  let rowsCount := row.getD 3 ""
  let date := row.getD 4 ""
  let notes := row.getD 5 ""
  if bed = "" && cropVariety = "" then []
  else if strIncludes cropVariety " / " then
    let cropParts := (strSplitOn cropVariety " / ").map jsTrim
    let traysParts :=
      if strIncludes trays " / " then (strSplitOn trays " / ").map jsTrim
      else [jsOr trays ""]
    (List.range cropParts.length).foldl (fun acc i =>
      if multiCropKeep cropParts i then
        acc ++ [mkMultiCropRec sheetName bed rowsCount date notes
          cropParts traysParts i]
      else acc) []
  else
    let cv := splitCropVariety cropVariety
    if jsTrim cv.1 ≠ "" then
      let replanting := parseReplantingNotes (jsOr notes "")
      [{ field := sheetName, bed := jsOr bed "",
         crop := jsTrim cv.1, variety := jsTrim cv.2,
         trays := jsOr trays "", rows := jsOr rowsCount "",
         date := jsOr date "", notes := jsOr notes "",
         replantedFrom := replanting.map (fun info =>
           { crop := jsOr (info.originalCrop.getD "") "",
             variety := jsOr (info.originalVariety.getD "") "",
             date := "",
             notes := jsOr info.replantingNote "" }) }]
    else []

/-- `parseSheetData` from the sync route: skips the header row and parses
every remaining row. -/
def parseSheetData (data : List (List String)) (sheetName : String) :
    List ParsedRec :=
  if data.length = 0 then []
  else (data.drop 1).foldl (fun acc row => acc ++ parseRow sheetName row) []

/-! ### The qualifiers block parser (`lib/parse-qualifiers.ts`) -/

/-- One assessment question with its option list. -/
structure Assessment where
  name : String
  options : List String
  deriving DecidableEq, Repr

/-- One crop entry produced by the qualifiers parser. -/
structure VegetableData where
  name : String
  location : Option String
  assessments : List Assessment
  deriving DecidableEq, Repr

/-- One hoisted universal qualifier. -/
structure UniversalQualifier where
  name : String
  options : List String
  order : Nat
  deriving DecidableEq, Repr

/-- `parseCropNameAndLocation`: the last comma in the token separates base
crop name from location; no comma means no location. -/
def parseCropNameAndLocation (fullName : String) : String × Option String :=
  let parts := strSplitOn fullName ","
  if parts.length ≤ 1 then (jsTrim fullName, none)
  else (jsTrim (String.intercalate "," parts.dropLast),
        some (jsTrim (parts.getLastD "")))

/-- Replaces the element at index `i` (no effect when out of range). -/
def modifyNth {α : Type} (l : List α) (i : Nat) (f : α → α) : List α :=
  match l, i with
  | [], _ => []
  | a :: t, 0 => f a :: t
  | a :: t, n + 1 => a :: modifyNth t n f

/-- Accumulator of the row loop in `parseQualifiersSheet`. -/
structure QPState where
  vegetables : List VegetableData
  names : List String
  assessments : List Assessment
  deriving Repr

/-- Flushes the currently accumulated crop block into the vegetables list
(one entry per crop name, each with an independent copy of the questions). -/
def flushBlock (st : QPState) : List VegetableData :=
  if st.names ≠ [] && st.assessments ≠ [] then
    st.vegetables ++ st.names.map (fun fullName =>
      let nl := parseCropNameAndLocation fullName
      { name := nl.1, location := nl.2,
        assessments := st.assessments.map (fun a =>
          { name := a.name, options := a.options }) })
  else st.vegetables

/-- Extracts the question cells (columns B onward, cells ending in `?`)
from a block header row. -/
def headerAssessments (row : List String) : List Assessment :=
  (row.drop 1).foldl (fun acc cell =>
    let c := jsTrim cell
    if c ≠ "" && strEndsWith c "?" then acc ++ [{ name := c, options := [] }]
    else acc) []

/-- Adds the options of one option row to the accumulated questions,
aligned by column position (column B feeds question index 0, and so on). -/
def addOptionsRow (assessments : List Assessment) (row : List String) :
    List Assessment :=
  (List.range (row.length - 1)).foldl (fun acc i =>
    let cell := jsTrim (row.getD (i + 1) "")
    if cell = "" then acc
    else if i < assessments.length then
      let opt := if strStartsWith cell "- " then jsTrim (strDrop cell 2) else cell
      if opt ≠ "" && !strEndsWith opt "?" then
        modifyNth acc i (fun a => { a with options := a.options ++ [opt] })
      else acc
    else acc) assessments

/-- One step of the row loop of `parseQualifiersSheet`. -/
def qpStep (st : QPState) (row : List String) : QPState :=
  if row.length = 0 then st
  else
    let firstCell := jsOr (jsTrim (row.getD 0 "")) ""
    if firstCell ≠ "" && !strStartsWith firstCell "-" then
      { vegetables := flushBlock st,
        names := ((strSplitOn firstCell "/").map jsTrim).filter
          (fun n => n.length > 0),
        assessments := headerAssessments row }
    else if st.names ≠ [] && st.assessments ≠ [] then
      { st with assessments := addOptionsRow st.assessments row }
    else st

/-- All blocks of the grid parsed into crop entries (before noise filtering
and universal extraction). -/
def rawVegetables (data : List (List String)) : List VegetableData :=
  flushBlock (data.foldl qpStep { vegetables := [], names := [], assessments := [] })

/-- The crop entries that survive noise filtering: at least one question
and at least one question with options. -/
def filteredVegetables (data : List (List String)) : List VegetableData :=
  (rawVegetables data).filter (fun v =>
    v.assessments.length > 0 && v.assessments.any (fun a => a.options.length > 0))

/-- The question-name list of one crop entry. -/
def qnames (v : VegetableData) : List String :=
  v.assessments.map (fun a => a.name)

/-- Association-list lookup of a counter (0 when absent). -/
def lookupNat (m : List (String × Nat)) (k : String) : Nat :=
  match m with
  | [] => 0
  | p :: t => if p.1 = k then p.2 else lookupNat t k

/-- `map.set(k, (map.get(k) || 0) + 1)`: increments the counter stored
under `k` in place, appending a fresh entry when the key is absent (the JS
`Map` keeps insertion order). -/
def bumpCount (m : List (String × Nat)) (k : String) : List (String × Nat) :=
  match m with
  | [] => [(k, 1)]
  | p :: t => if p.1 = k then (p.1, p.2 + 1) :: t else p :: bumpCount t k

/-- De-duplicates a list keeping the first occurrence of each element
(the JS `Set` keeps insertion order). -/
def dedupFirstAux (seen : List String) : List String → List String
  | [] => []
  | x :: t =>
    if seen.contains x then dedupFirstAux seen t
    else x :: dedupFirstAux (x :: seen) t

/-- De-duplicated question-name list, first occurrences first. -/
def dedupFirst (l : List String) : List String := dedupFirstAux [] l

/-- `assessmentCounts`: how many surviving crops mention each question name
(each crop counted once via its de-duplicated name set). -/
def assessmentCounts (vegs : List VegetableData) : List (String × Nat) :=
  vegs.foldl (fun m veg =>
    (dedupFirst (veg.assessments.map (fun a => a.name))).foldl bumpCount m) []

/-- `assessmentData`: options and in-block index of the first occurrence of
each question name across the surviving crops. -/
def assessmentData (vegs : List VegetableData) :
    List (String × (List String × Nat)) :=
  vegs.foldl (fun m veg =>
    veg.assessments.enum.foldl (fun m ia =>
      if m.any (fun p => p.1 = ia.2.name) then m
      else m ++ [(ia.2.name, (ia.2.options, ia.1))]) m) []

/-- The universal question names: those counted in every surviving crop. -/
def universalNames (data : List (List String)) : List String :=
  ((assessmentCounts (filteredVegetables data)).filter
    (fun p => p.2 = (filteredVegetables data).length)).map (fun p => p.1)

/-- The universal qualifiers before sorting, in count-map insertion order. -/
def universalsUnsorted (data : List (List String)) : List UniversalQualifier :=
  (assessmentCounts (filteredVegetables data)).filterMap (fun p =>
    if p.2 = (filteredVegetables data).length then
      ((assessmentData (filteredVegetables data)).find?
        (fun q => q.1 = p.1)).map (fun q =>
          { name := p.1, options := q.2.1, order := q.2.2 })
    else none)

/-- Amended-spec characterisation of where a universal qualifier's options
and order come from: scanning the surviving crop entries in order, the first
entry whose assessments mention the name contributes the options and the
index of that question within ITS assessments list. -/
def specFirstOcc (vegs : List VegetableData) (n : String) :
    Option (List String × Nat) :=
  vegs.findSome? (fun v =>
    (v.assessments.enum.find? (fun ia => ia.2.name = n)).map
      (fun ia => (ia.2.options, ia.1)))

/-- Result shape of `parseQualifiersSheet`. -/
structure QualifiersResult where
  vegetables : List VegetableData
  universalQualifiers : List UniversalQualifier
  deriving DecidableEq, Repr

/-- `parseQualifiersSheet` from `lib/parse-qualifiers.ts`: parses the block
grid, filters incomplete crops, hoists the universal questions (sorted by
their first-occurrence order, stable) and removes them from each crop. -/
def parseQualifiersSheet (data : List (List String)) : QualifiersResult :=
  if data.length = 0 then { vegetables := [], universalQualifiers := [] }
  else
    let filtered := filteredVegetables data
    if filtered.length > 0 then
      { vegetables := filtered.map (fun v =>
          { v with assessments := v.assessments.filter (fun a =>
              !(universalNames data).contains a.name) }),
        universalQualifiers :=
          stableSortBy (fun a b => decide (a.order ≤ b.order))
            (universalsUnsorted data) }
    else { vegetables := filtered, universalQualifiers := [] }

/-! ### Analytics helpers (`convex/schema.ts`) -/

/-- Collapses every whitespace run into a single space
(`.replace(/\s+/g, " ")`); the flag records whether the previous character
was part of a run. -/
def collapseWsAux : Bool → List Char → List Char
  | _, [] => []
  | prevSpace, c :: t =>
    if jsSpace c then
      if prevSpace then collapseWsAux true t
      else ' ' :: collapseWsAux true t
    else c :: collapseWsAux false t

/-- `normalizeLabel`: trim, lowercase, collapse internal whitespace. -/
def normalizeLabel (value : String) : String :=
  String.mk (collapseWsAux false ((jsTrim value).toList.map Char.toLower))

/-- `isPlanningQuestion`: fuzzy match for the planting-quantity intent. -/
def isPlanningQuestion (question : String) : Bool :=
  let q := normalizeLabel question
  strIncludes q "planting quantity" || strIncludes q "quantity planted" ||
  strIncludes q "quantity?" || strIncludes q "planted too"

/-- The four planning buckets. -/
inductive PlanningBucket where
  | under | on_target | over | unknown
  deriving DecidableEq, Repr

/-- The under-bucket keyword test of `getPlanningBucket`. -/
def underKw (normalized : String) : Bool :=
  strIncludes normalized "not enough" || strIncludes normalized "too little" ||
  strIncludes normalized "under"

/-- The over-bucket keyword test of `getPlanningBucket`. -/
def overKw (normalized : String) : Bool :=
  strIncludes normalized "too much" || strIncludes normalized "too many" ||
  strIncludes normalized "over" || strIncludes normalized "excess"

/-- The on-target keyword test of `getPlanningBucket`. -/
def targetKw (normalized : String) : Bool :=
  strIncludes normalized "just right" || strIncludes normalized "perfect" ||
  strIncludes normalized "ideal" || strIncludes normalized "right amount"

/-- `getPlanningBucket`: keyword classification of a free-text answer, with
the under keywords checked first, then over, then on-target. -/
def getPlanningBucket (answer : String) : PlanningBucket :=
  let normalized := normalizeLabel answer
  if underKw normalized then .under
  else if overKw normalized then .over
  else if targetKw normalized then .on_target
  else .unknown

/-- Milliseconds per UTC day. -/
def msPerDay : Int := 86400000

/-- `Date.prototype.getUTCDay` on a millisecond timestamp: 0 is Sunday,
6 is Saturday (the epoch day 1970-01-01 was a Thursday, day 4). -/
def getUTCDay (t : Int) : Int :=
  (t / msPerDay + 4) % 7

/-- `setUTCHours(0,0,0,0)`: the start of the UTC day containing `t`. -/
def startOfDayUtc (t : Int) : Int :=
  msPerDay * (t / msPerDay)

/-- `startOfWeekUtc` from `convex/schema.ts`: the Monday-anchored start of
the week containing `t` (Sunday is shifted back six days). -/
def startOfWeekUtc (timestamp : Int) : Int :=
  let day := getUTCDay timestamp
  let diffToMonday := if day = 0 then -6 else 1 - day
  startOfDayUtc timestamp + diffToMonday * msPerDay

/-- Proleptic-Gregorian civil date (year, month, day) of a day number
counted from 1970-01-01 (the standard days-to-civil conversion used by the
JS `Date` UTC accessors). -/
def civilFromDays (z0 : Int) : Int × Int × Int :=
  let z := z0 + 719468
  let era := z / 146097
  let doe := z - era * 146097
  let yoe := (doe - doe / 1460 + doe / 36524 - doe / 146096) / 365
  let y := yoe + era * 400
  let doy := doe - (365 * yoe + yoe / 4 - yoe / 100)
  let mp := (5 * doy + 2) / 153
  let d := doy - (153 * mp + 2) / 5 + 1
  let m := if mp < 10 then mp + 3 else mp - 9
  (if m ≤ 2 then y + 1 else y, m, d)

/-- Left-pads a numeral to two digits (`String(x).padStart(2, "0")`). -/
def padTwo (n : Int) : String :=
  let s := toString n
  if s.length < 2 then "0" ++ s else s

/-- `dateKey`: the `YYYY-MM-DD` key of the UTC day containing `t`. -/
def dateKey (t : Int) : String :=
  let ymd := civilFromDays (t / msPerDay)
  toString ymd.1 ++ "-" ++ padTwo ymd.2.1 ++ "-" ++ padTwo ymd.2.2

/-- Day number counted from 1970-01-01 of a civil date (inverse of
`civilFromDays`). -/
def daysFromCivil (y m d : Int) : Int :=
  let y1 := if m ≤ 2 then y - 1 else y
  let era := y1 / 400
  let yoe := y1 - era * 400
  let doy := (153 * (if m > 2 then m - 3 else m + 9) + 2) / 5 + d - 1
  let doe := yoe * 365 + yoe / 4 - yoe / 100 + doy
  era * 146097 + doe - 719468

/-- Number of days in a month of the Gregorian calendar. -/
def daysInMonth (y m : Int) : Int :=
  if m = 2 then
    if y % 4 = 0 && (y % 100 ≠ 0 || y % 400 = 0) then 29
    else 28
  else if m = 4 || m = 6 || m = 9 || m = 11 then 30
  else 31

/-- Whether a string is a run of ASCII digits of the given length. -/
def digitsOfLen (s : String) (n : Nat) : Bool :=
  s.length = n && s.toList.all (fun c => c.isDigit)

/-- `getStartTimestampFromDate`: models
`new Date(dateString + "T00:00:00.000Z").getTime()` for a `YYYY-MM-DD`
string; `none` models the `NaN` of an invalid date. -/
def getStartTimestampFromDate (dateString : String) : Option Int :=
  match strSplitOn dateString "-" with
  | [ys, ms, ds] =>
    if digitsOfLen ys 4 && digitsOfLen ms 2 && digitsOfLen ds 2 then
      let y : Int := Int.ofNat (listToNat ys.toList)
      let m : Int := Int.ofNat (listToNat ms.toList)
      let d : Int := Int.ofNat (listToNat ds.toList)
      if 1 ≤ m && m ≤ 12 && 1 ≤ d && d ≤ daysInMonth y m then
        some (daysFromCivil y m d * msPerDay)
      else none
    else none
  | _ => none

/-- `getEndTimestampFromDate`: models
`new Date(dateString + "T23:59:59.999Z").getTime()`. -/
def getEndTimestampFromDate (dateString : String) : Option Int :=
  (getStartTimestampFromDate dateString).map (fun t => t + 86399999)

/-! ### The quality-log table and the analytics aggregation -/

/-- One question-answer pair of a quality log. -/
structure Response where
  question : String
  answer : String
  deriving DecidableEq, Repr

/-- One quality-log document (the fields of the `qualityLogs` table). -/
structure QualityLog where
  crop : String
  variety : String
  field : String
  bed : String
  datePlanted : String
  trays : String
  rows : String
  plantingNotes : String
  responses : List Response
  logNotes : Option String := none
  assessmentDate : Int
  createdAt : Int
  deriving DecidableEq, Repr

/-- One document of the `crops` table: a parsed record plus sync time. -/
structure CropRec extends ParsedRec where
  lastSynced : Int
  deriving DecidableEq, Repr

/-- Ensures an association-list key exists, appending a default entry. -/
def ensureKey {β : Type} (m : List (String × β)) (k : String) (d : β) :
    List (String × β) :=
  if m.any (fun p => p.1 = k) then m else m ++ [(k, d)]

/-- Updates the value stored under an association-list key in place. -/
def updateVal {β : Type} (m : List (String × β)) (k : String) (f : β → β) :
    List (String × β) :=
  m.map (fun p => if p.1 = k then (p.1, f p.2) else p)

/-- Per-key planning statistics. -/
structure PStats where
  under : Nat := 0
  onTarget : Nat := 0
  over : Nat := 0
  unknown : Nat := 0
  total : Nat := 0
  deriving DecidableEq, Repr

/-- Adds one classified log to a planning statistics record. -/
def incPStats (b : PlanningBucket) (s : PStats) : PStats :=
  { under := s.under + (if b = .under then 1 else 0),
    onTarget := s.onTarget + (if b = .on_target then 1 else 0),
    over := s.over + (if b = .over then 1 else 0),
    unknown := s.unknown +
      (if b = .under || b = .on_target || b = .over then 0 else 1),
    total := s.total + 1 }

/-- Accumulator of the log loop in `getAnalyticsOverview`. -/
structure AccState where
  byCrop : List (String × Nat) := []
  byField : List (String × Nat) := []
  logsByWeek : List (String × Nat) := []
  questionStats : List (String × List (String × Nat)) := []
  planningByCrop : List (String × PStats) := []
  planningByField : List (String × PStats) := []
  planningByWeek : List (String × PStats) := []
  underCount : Nat := 0
  onTargetCount : Nat := 0
  overCount : Nat := 0
  unknownCount : Nat := 0
  planningSampleSize : Nat := 0
  deriving Repr

/-- One step of the response loop: tallies the answer and records the first
planning-question bucket. -/
def responseStep
    (st : List (String × List (String × Nat)) × Option PlanningBucket)
    (r : Response) :
    List (String × List (String × Nat)) × Option PlanningBucket :=
  let qs := updateVal (ensureKey st.1 r.question [])
    r.question (fun am => bumpCount am r.answer)
  let bucket :=
    if st.2.isNone && isPlanningQuestion r.question then
      some (getPlanningBucket r.answer)
    else st.2
  (qs, bucket)

/-- One step of the log loop of `getAnalyticsOverview`. -/
def logStep (acc : AccState) (log : QualityLog) : AccState :=
  let weekKey := dateKey (startOfWeekUtc log.assessmentDate)
  let rs := log.responses.foldl responseStep (acc.questionStats, none)
  let acc := { acc with
    byCrop := bumpCount acc.byCrop log.crop,
    byField := bumpCount acc.byField log.field,
    logsByWeek := bumpCount acc.logsByWeek weekKey,
    questionStats := rs.1 }
  match rs.2 with
  | none => acc
  | some bucket =>
    { acc with
      planningSampleSize := acc.planningSampleSize + 1,
      underCount := acc.underCount + (if bucket = .under then 1 else 0),
      onTargetCount := acc.onTargetCount + (if bucket = .on_target then 1 else 0),
      overCount := acc.overCount + (if bucket = .over then 1 else 0),
      unknownCount := acc.unknownCount +
        (if bucket = .under || bucket = .on_target || bucket = .over then 0 else 1),
      planningByCrop := updateVal (ensureKey acc.planningByCrop log.crop {})
        log.crop (incPStats bucket),
      planningByField := updateVal (ensureKey acc.planningByField log.field {})
        log.field (incPStats bucket),
      planningByWeek := updateVal (ensureKey acc.planningByWeek weekKey {})
        weekKey (incPStats bucket) }

/-- A `{ name, value }` chart point. -/
structure NameValue where
  name : String
  value : Nat
  deriving DecidableEq, Repr

/-- A `{ weekStart, logsCount }` chart point. -/
structure WeekCount where
  weekStart : String
  logsCount : Nat
  deriving DecidableEq, Repr

/-- A `{ answer, count }` tally. -/
structure AnswerCount where
  answer : String
  count : Nat
  deriving DecidableEq, Repr

/-- One `responseByQuestion` entry. -/
structure QuestionChart where
  question : String
  total : Nat
  answers : List AnswerCount
  deriving DecidableEq, Repr

/-- One per-crop or per-field planning chart entry. -/
structure PlanningChartEntry where
  key : String
  total : Nat
  under : Nat
  onTarget : Nat
  over : Nat
  unknown : Nat
  underRate : ℚ
  onTargetRate : ℚ
  overRate : ℚ
  balance : ℚ
  deriving DecidableEq, Repr

/-- One planning trend (per-week) entry. -/
structure TrendEntry where
  weekStart : String
  total : Nat
  under : Nat
  onTarget : Nat
  over : Nat
  unknown : Nat
  underRate : ℚ
  overRate : ℚ
  balance : ℚ
  deriving DecidableEq, Repr

/-- The `planning` section of the overview result. -/
structure PlanningResult where
  sampleSize : Nat
  underCount : Nat
  onTargetCount : Nat
  overCount : Nat
  unknownCount : Nat
  underRate : ℚ
  onTargetRate : ℚ
  overRate : ℚ
  balance : ℚ
  byCrop : List PlanningChartEntry
  byField : List PlanningChartEntry
  trend : List TrendEntry
  deriving DecidableEq, Repr

/-- The `totals` section of the overview result. -/
structure TotalsResult where
  totalLogs : Nat
  totalCrops : Nat
  uniqueCrops : Nat
  uniqueFields : Nat
  deriving DecidableEq, Repr

/-- The `filters` section of the overview result. -/
structure FiltersResult where
  cropOptions : List String
  fieldOptions : List String
  deriving DecidableEq, Repr

/-- The full result of `getAnalyticsOverview`. -/
structure OverviewResult where
  filters : FiltersResult
  totals : TotalsResult
  logsByWeek : List WeekCount
  byCrop : List NameValue
  byField : List NameValue
  responseByQuestion : List QuestionChart
  planning : PlanningResult
  deriving DecidableEq, Repr

/-- Builds one per-crop or per-field planning chart entry
(`total || 1` guards the divisions; `balance = underRate - overRate`). -/
def mkPlanningEntry (key : String) (stats : PStats) : PlanningChartEntry :=
  let total : ℚ := if stats.total = 0 then 1 else (stats.total : ℚ)
  let underRate := (stats.under : ℚ) / total * 100
  let onTargetRate := (stats.onTarget : ℚ) / total * 100
  let overRate := (stats.over : ℚ) / total * 100
  { key := key, total := stats.total, under := stats.under,
    onTarget := stats.onTarget, over := stats.over, unknown := stats.unknown,
    underRate := underRate, onTargetRate := onTargetRate,
    overRate := overRate, balance := underRate - overRate }

/-- Builds one planning trend entry. -/
def mkTrendEntry (weekStart : String) (stats : PStats) : TrendEntry :=
  let total : ℚ := if stats.total = 0 then 1 else (stats.total : ℚ)
  let underRate := (stats.under : ℚ) / total * 100
  let overRate := (stats.over : ℚ) / total * 100
  { weekStart := weekStart, total := stats.total, under := stats.under,
    onTarget := stats.onTarget, over := stats.over, unknown := stats.unknown,
    underRate := underRate, overRate := overRate,
    balance := underRate - overRate }

/-- The JS truthiness guard on an optional string argument (an absent or
empty string means no filtering). -/
def optStr (o : Option String) : Option String :=
  match o with
  | some s => if s = "" then none else some s
  | none => none

/-- `getAnalyticsOverview` from `convex/schema.ts`, over explicit table
contents.  The date-range bounds arrive as `Option (Option Int)`: the outer
level models an absent (or falsy) argument, the inner level the `NaN` of an
unparseable date string (a `NaN` bound never excludes a log, because every
comparison against `NaN` is false). -/
def getAnalyticsOverview (allLogs : List QualityLog) (crops : List CropRec)
    (argsStartDate argsEndDate argsCrop argsField : Option String) :
    OverviewResult :=
  let cropOptions := stableSortBy strLe (dedupFirst (allLogs.map (fun l => l.crop)))
  let fieldOptions := stableSortBy strLe (dedupFirst (allLogs.map (fun l => l.field)))
  let startTs : Option (Option Int) :=
    (optStr argsStartDate).map getStartTimestampFromDate
  let endTs : Option (Option Int) :=
    (optStr argsEndDate).map getEndTimestampFromDate
  let logs := allLogs.filter (fun log =>
    (match optStr argsCrop with
     | some c => log.crop = c
     | none => true) &&
    (match optStr argsField with
     | some f => log.field = f
     | none => true) &&
    (match startTs with
     | some (some ts) => decide (ts ≤ log.assessmentDate)
     | _ => true) &&
    (match endTs with
     | some (some ts) => decide (log.assessmentDate ≤ ts)
     | _ => true))
  let acc := logs.foldl logStep {}
  { filters := { cropOptions := cropOptions, fieldOptions := fieldOptions },
    totals :=
      { totalLogs := logs.length,
        totalCrops := crops.length,
        uniqueCrops := (dedupFirst (crops.map (fun c => c.crop))).length,
        uniqueFields := (dedupFirst (crops.map (fun c => c.field))).length },
    logsByWeek := ((stableSortBy (fun a b => strLe a.1 b.1) acc.logsByWeek).map
      (fun p => { weekStart := p.1, logsCount := p.2 })),
    byCrop := (stableSortBy (fun a b => decide (b.value ≤ a.value))
      (acc.byCrop.map (fun p => { name := p.1, value := p.2 })) : List NameValue),
    byField := (stableSortBy (fun a b => decide (b.value ≤ a.value))
      (acc.byField.map (fun p => { name := p.1, value := p.2 })) : List NameValue),
    responseByQuestion := (stableSortBy (fun a b => decide (b.total ≤ a.total))
      (acc.questionStats.map (fun p =>
      { question := p.1,
        total := (p.2.map (fun a => a.2)).foldl (fun s c => s + c) 0,
        answers := (stableSortBy (fun a b => decide (b.count ≤ a.count))
          (p.2.map (fun a => { answer := a.1, count := a.2 })) : List AnswerCount) })) : List QuestionChart),
    planning :=
      { sampleSize := acc.planningSampleSize,
        underCount := acc.underCount,
        onTargetCount := acc.onTargetCount,
        overCount := acc.overCount,
        unknownCount := acc.unknownCount,
        underRate :=
          if acc.planningSampleSize > 0 then
            (acc.underCount : ℚ) / (acc.planningSampleSize : ℚ) * 100
          else 0,
        onTargetRate :=
          if acc.planningSampleSize > 0 then
            (acc.onTargetCount : ℚ) / (acc.planningSampleSize : ℚ) * 100
          else 0,
        overRate :=
          if acc.planningSampleSize > 0 then
            (acc.overCount : ℚ) / (acc.planningSampleSize : ℚ) * 100
          else 0,
        balance :=
          if acc.planningSampleSize > 0 then
            ((acc.underCount : ℚ) - (acc.overCount : ℚ)) /
              (acc.planningSampleSize : ℚ) * 100
          else 0,
        byCrop := (stableSortBy (fun a b => decide (b.total ≤ a.total))
          (acc.planningByCrop.map (fun p => mkPlanningEntry p.1 p.2)) : List PlanningChartEntry),
        byField := (stableSortBy (fun a b => decide (b.total ≤ a.total))
          (acc.planningByField.map (fun p => mkPlanningEntry p.1 p.2)) : List PlanningChartEntry),
        trend := ((stableSortBy (fun a b => strLe a.1 b.1) acc.planningByWeek).map
          (fun p => mkTrendEntry p.1 p.2) : List TrendEntry) } }

/-! ### The sync/merge mutations (`convex/schema.ts`)

The document store is modelled as explicit lists of records; an indexed
`.first()` query is `List.find?`, a patch rewrites the first matching
record in place, an insert appends, and deleting a collected batch removes
exactly those records.  `Date.now()` arrives as an explicit `now`
argument. -/

/-- One document of the `sheets` table. -/
structure SheetRec where
  spreadsheetId : String
  range : String
  data : List (List String)
  parsedData : Option (List ParsedRec)
  lastSynced : Int
  deriving DecidableEq, Repr

/-- The slice of the store that `syncSheetData` touches. -/
structure SyncState where
  sheets : List SheetRec
  crops : List CropRec
  deriving DecidableEq, Repr

/-- The value returned by `syncSheetData` (the inserted document id is not
modelled). -/
structure SyncSheetResult where
  success : Bool
  action : String
  cropsCount : Nat
  deriving DecidableEq, Repr

/-- Rewrites the first record satisfying `p` in place. -/
def patchFirst {α : Type} (l : List α) (p : α → Bool) (f : α → α) : List α :=
  match l with
  | [] => []
  | a :: t => if p a then f a :: t else a :: patchFirst t p f

/-- `syncSheetData` from `convex/schema.ts`: upserts the raw snapshot by
(spreadsheetId, range), and when non-empty parsed records are supplied,
deletes every crop of the first parsed record's field and inserts all the
new ones. -/
def syncSheetData (spreadsheetId range : String) (data : List (List String))
    (parsedData : Option (List ParsedRec)) (now : Int) (st : SyncState) :
    SyncSheetResult × SyncState :=
  let isKey := fun (s : SheetRec) =>
    s.spreadsheetId = spreadsheetId && s.range = range
  let existing := st.sheets.find? isKey
  let sheets :=
    match existing with
    | some _ => patchFirst st.sheets isKey (fun s =>
        { s with data := data, parsedData := parsedData, lastSynced := now })
    | none => st.sheets ++
        [{ spreadsheetId := spreadsheetId, range := range, data := data,
           parsedData := parsedData, lastSynced := now }]
  let action := if existing.isSome then "updated" else "created"
  match parsedData with
  | some (first :: rest) =>
    let pd := first :: rest
    let fieldName := first.field
    let crops := st.crops.filter (fun c => !(c.field = fieldName)) ++
      pd.map (fun r => { toParsedRec := r, lastSynced := now })
    ({ success := true, action := action, cropsCount := pd.length },
     { sheets := sheets, crops := crops })
  | _ =>
    ({ success := true, action := action, cropsCount := 0 },
     { sheets := sheets, crops := st.crops })

/-- One assessment as stored in the `qualifiers` table. -/
structure QualAssessment where
  name : String
  options : List String
  isUniversal : Option Bool := none
  deriving DecidableEq, Repr

/-- One element of the `qualifiers` argument of `syncQualifiers`. -/
structure QualifierInput where
  name : String
  location : Option String
  assessments : List QualAssessment
  deriving DecidableEq, Repr

/-- One document of the `qualifiers` table. -/
structure QualifierRec where
  name : String
  location : Option String
  assessments : List QualAssessment
  lastSynced : Int
  deriving DecidableEq, Repr

/-- `syncQualifiers` from `convex/schema.ts`: upserts each crop-specific
qualifier by the compound (name, location) key; nothing is ever deleted. -/
def syncQualifiers (qualifiers : List QualifierInput) (now : Int)
    (store : List QualifierRec) : List QualifierRec :=
  qualifiers.foldl (fun db q =>
    let isKey := fun (r : QualifierRec) =>
      r.name = q.name && r.location = q.location
    match db.find? isKey with
    | some _ => patchFirst db isKey (fun r =>
        { r with assessments := q.assessments, lastSynced := now })
    | none => db ++
        [{ name := q.name, location := q.location,
           assessments := q.assessments, lastSynced := now }]) store

/-- One element of the `qualifiers` argument of `syncUniversalQualifiers`. -/
structure UQInput where
  name : String
  options : List String
  order : Nat
  deriving DecidableEq, Repr

/-- One document of the `universalQualifiers` table; `id` models the
document id that patches and deletes are addressed to. -/
structure UQRec where
  id : Nat
  name : String
  options : List String
  order : Nat
  lastSynced : Int
  deriving DecidableEq, Repr

/-- A document id unused by any record of `db`. -/
def uqFreshId (db : List UQRec) : Nat :=
  db.foldr (fun r m => max r.id m) 0 + 1

/-- Patches the record with document id `i`. -/
def dbPatchUQ (db : List UQRec) (i : Nat) (f : UQRec → UQRec) : List UQRec :=
  db.map (fun r => if r.id = i then f r else r)

/-- `new Map(existing.map(q => [q.name, q])).get(n)`: the last record of the
snapshot with the given name (later entries overwrite earlier ones). -/
def existingMapGet (store : List UQRec) (n : String) : Option UQRec :=
  (store.filter (fun r => r.name = n)).getLast?

/-- The patch applied to an existing universal-qualifier record: options
and order are overwritten, id and name kept. -/
def uqPatchFn (q : UQInput) (now : Int) (r : UQRec) : UQRec :=
  { r with options := q.options, order := q.order, lastSynced := now }

/-- One step of the upsert loop of `syncUniversalQualifiers`: patch the
snapshot record of that name, or insert a fresh record. -/
def uqUpsertStep (store : List UQRec) (now : Int) (db : List UQRec)
    (q : UQInput) : List UQRec :=
  match existingMapGet store q.name with
  | some ex => dbPatchUQ db ex.id (uqPatchFn q now)
  | none => db ++
      [{ id := uqFreshId db, name := q.name, options := q.options,
         order := q.order, lastSynced := now }]

/-- One step of the deletion loop of `syncUniversalQualifiers`: delete the
snapshot record unless its name was seen in the new input. -/
def uqDeleteStep (seen : List String) (db : List UQRec) (ex : UQRec) :
    List UQRec :=
  if seen.contains ex.name then db
  else db.filter (fun r => !(r.id = ex.id))

/-- `syncUniversalQualifiers` from `convex/schema.ts`: upserts every input
by question name against the pre-loop snapshot, then deletes every snapshot
record whose name was not seen in the input. -/
def syncUniversalQualifiers (qualifiers : List UQInput) (now : Int)
    (store : List UQRec) : List UQRec :=
  let seen := qualifiers.map (fun q => q.name)
  let afterUpsert := qualifiers.foldl (uqUpsertStep store now) store
  store.foldl (uqDeleteStep seen) afterUpsert

/-! ### Generic lemmas about the fold patterns of the embedding -/

theorem foldl_mem_invariant {α β : Type} (f : List α → β → List α)
    (Q : α → Prop)
    (hf : ∀ acc b r, r ∈ f acc b → r ∈ acc ∨ Q r) :
    ∀ (l : List β) (init : List α) (r : α), r ∈ l.foldl f init →
      r ∈ init ∨ Q r := by
  intro l
  induction l with
  | nil => intro init r h; exact Or.inl h
  | cons b t ih =>
    intro init r h
    rcases ih (f init b) r h with h' | h'
    · exact hf init b r h'
    · exact Or.inr h'

theorem patchFirst_length {α : Type} (p : α → Bool) (f : α → α) :
    ∀ l : List α, (patchFirst l p f).length = l.length := by
  intro l
  induction l with
  | nil => rfl
  | cons a t ih =>
    by_cases h : p a = true
    · simp [patchFirst, h]
    · simp [patchFirst, h, ih]

theorem patchFirst_filter {α : Type} (q p : α → Bool) (f : α → α)
    (h : ∀ a, p a = true → (q a = false ∧ q (f a) = false)) :
    ∀ l : List α, (patchFirst l p f).filter q = l.filter q := by
  intro l
  induction l with
  | nil => rfl
  | cons a t ih =>
    by_cases hp : p a = true
    · have := h a hp
      simp [patchFirst, hp, this.1, this.2]
    · simp only [patchFirst, hp, if_neg, Bool.not_eq_true] at *
      simp [patchFirst, hp, List.filter_cons, ih]

/-! ### C5: location detection -/

theorem parseRow_location (sheetName : String) (row : List String) :
    ∀ r ∈ parseRow sheetName row, r.location = none := by
  intro r hr
  unfold parseRow at hr
  dsimp only at hr
  split at hr
  · simp at hr
  · split at hr
    · have := foldl_mem_invariant _ (fun r : ParsedRec => r.location = none)
        ?_ _ _ r hr
      · rcases this with h | h
        · simp at h
        · exact h
      · intro acc b r' h'
        split at h'
        · rcases List.mem_append.mp h' with h | h
          · exact Or.inl h
          · simp at h
            subst h
            exact Or.inr rfl
        · exact Or.inl h'
    · split at hr
      · simp at hr
        subst hr
        rfl
      · simp at hr

/-- C5 counterexample: the claim says a sheet name containing "ht" (such as
"HT 1") makes every emitted record carry a high-tunnel location value, but
the record emitted for sheet "HT 1" carries no location at all. -/
theorem C5_counterexample :
    (parseSheetData [["h"], ["A1", "Tomato:Roma", "4", "2", "5/1", ""]]
        "HT 1").map (fun r => r.location) = [none] ∧
    strIncludes (lowerStr "HT 1") "ht" = true := by
  constructor
  · decide
  · decide

/-- C5 (amended): the tabular row parser performs no location
classification at all — every record emitted by `parseSheetData`, for every
grid and every sheet name, has an absent `location`. -/
theorem C5_parseSheetData_no_location (data : List (List String))
    (sheetName : String) :
    ∀ r ∈ parseSheetData data sheetName, r.location = none := by
  intro r hr
  unfold parseSheetData at hr
  split at hr
  · simp at hr
  · have := foldl_mem_invariant _ (fun r : ParsedRec => r.location = none)
      ?_ _ _ r hr
    · rcases this with h | h
      · simp at h
      · exact h
    · intro acc b r' h'
      rcases List.mem_append.mp h' with h | h
      · exact Or.inl h
      · exact Or.inr (parseRow_location _ _ _ h)

/-- The record emitted for the single data row of the C5 witness grid. -/
def c5rec : ParsedRec :=
  { field := "HT 1", bed := "A1", crop := "Tomato", variety := "",
    trays := "", rows := "", date := "", notes := "" }

theorem C5_witness : c5rec.location = none :=
  C5_parseSheetData_no_location [["h"], ["A1", "Tomato", "", "", "", ""]]
    "HT 1" c5rec (by decide)

/-! ### C7: week bucketing -/

/-- C7: for every timestamp, `startOfWeekUtc` lands on a Monday at 00:00:00
UTC; a UTC-Sunday timestamp is sent to the Monday six days before its own
day start (the Monday of the preceding week), and any other timestamp to
the Monday of its own week (its day start minus day-of-week − 1 days). -/
theorem C7_startOfWeekUtc (t : Int) :
    startOfWeekUtc t =
      startOfDayUtc t -
        (if getUTCDay t = 0 then 6 else getUTCDay t - 1) * msPerDay ∧
    getUTCDay (startOfWeekUtc t) = 1 ∧
    startOfWeekUtc t % msPerDay = 0 := by
  unfold startOfWeekUtc getUTCDay startOfDayUtc msPerDay
  dsimp only
  set d := t / 86400000 with hd
  by_cases h0 : (d + 4) % 7 = 0
  · rw [if_pos h0, if_pos h0]
    refine ⟨by ring, by omega, by omega⟩
  · rw [if_neg h0, if_neg h0]
    refine ⟨by ring, by omega, by omega⟩

/-! ### C10: crop-specific qualifier sync is upsert-only -/

/-- A stored qualifier record whose (name, location) key appears nowhere in
the sync input (the records the claim says must survive untouched). -/
def qualKeyAbsent (qualifiers : List QualifierInput) (r : QualifierRec) : Bool :=
  qualifiers.all (fun q => !(q.name = r.name && q.location = r.location))

/-- C10: `syncQualifiers` only upserts — the sub-list of stored records
whose (name, location) key is absent from the input is exactly the same,
record for record, after the sync as before it (nothing with an unmatched
key is deleted or modified), and the store never shrinks. -/
theorem C10_syncQualifiers_upsert_only (qualifiers : List QualifierInput)
    (now : Int) (store : List QualifierRec) :
    (syncQualifiers qualifiers now store).filter (qualKeyAbsent qualifiers) =
      store.filter (qualKeyAbsent qualifiers) ∧
    store.length ≤ (syncQualifiers qualifiers now store).length := by
  constructor
  · have aux : ∀ (proc : List QualifierInput), (∀ q ∈ proc, q ∈ qualifiers) →
        ∀ db : List QualifierRec,
        (proc.foldl (fun db q =>
          let isKey := fun (r : QualifierRec) =>
            r.name = q.name && r.location = q.location
          match db.find? isKey with
          | some _ => patchFirst db isKey (fun r =>
              { r with assessments := q.assessments, lastSynced := now })
          | none => db ++
              [{ name := q.name, location := q.location,
                 assessments := q.assessments, lastSynced := now }]) db).filter
            (qualKeyAbsent qualifiers) = db.filter (qualKeyAbsent qualifiers) := by
      intro proc
      induction proc with
      | nil => intro _ db; rfl
      | cons q t ih =>
        intro hsub db
        have hq : q ∈ qualifiers := hsub q (List.mem_cons_self q t)
        have ht : ∀ q' ∈ t, q' ∈ qualifiers := fun q' hq' =>
          hsub q' (List.mem_cons_of_mem q hq')
        rw [List.foldl_cons, ih ht]
        have hkey : ∀ a : QualifierRec,
            (a.name = q.name && a.location = q.location) = true →
            qualKeyAbsent qualifiers a = false := by
          intro a ha
          simp only [Bool.and_eq_true, decide_eq_true_eq] at ha
          apply List.all_eq_false.mpr
          refine ⟨q, hq, ?_⟩
          simp [ha.1, ha.2]
        dsimp only
        split
        · apply patchFirst_filter
          intro a ha
          refine ⟨hkey a ha, ?_⟩
          exact hkey _ (by simpa using ha)
        · rw [List.filter_append]
          have : qualKeyAbsent qualifiers
              { name := q.name, location := q.location,
                assessments := q.assessments, lastSynced := now } = false := by
            apply hkey
            simp
          simp [this]
    exact aux qualifiers (fun _ hq => hq) store
  · have aux : ∀ (proc : List QualifierInput) (db : List QualifierRec),
        db.length ≤ (proc.foldl (fun db q =>
          let isKey := fun (r : QualifierRec) =>
            r.name = q.name && r.location = q.location
          match db.find? isKey with
          | some _ => patchFirst db isKey (fun r =>
              { r with assessments := q.assessments, lastSynced := now })
          | none => db ++
              [{ name := q.name, location := q.location,
                 assessments := q.assessments, lastSynced := now }]) db).length := by
      intro proc
      induction proc with
      | nil => intro db; exact Nat.le_refl _
      | cons q t ih =>
        intro db
        rw [List.foldl_cons]
        refine Nat.le_trans ?_ (ih _)
        dsimp only
        split
        · rw [patchFirst_length]
        · simp
    exact aux qualifiers store

/-! ### C9: parser totality and degradation -/

theorem foldl_preserves {α β : Type} (f : List α → β → List α) (P : α → Prop)
    (hstep : ∀ acc b, (∀ x ∈ acc, P x) → ∀ x ∈ f acc b, P x) :
    ∀ (l : List β) (init : List α), (∀ x ∈ init, P x) →
      ∀ x ∈ l.foldl f init, P x := by
  intro l
  induction l with
  | nil => intro init h x hx; exact h x hx
  | cons b t ih =>
    intro init h x hx
    exact ih (f init b) (hstep init b h) x hx

theorem foldl_state_inv {σ β : Type} (f : σ → β → σ) (I : σ → Prop)
    (hstep : ∀ s b, I s → I (f s b)) :
    ∀ (l : List β) (s : σ), I s → I (l.foldl f s) := by
  intro l
  induction l with
  | nil => intro s h; exact h
  | cons b t ih => intro s h; exact ih (f s b) (hstep s b h)

theorem modifyNth_mem {α : Type} (f : α → α) :
    ∀ (l : List α) (i : Nat), ∀ x ∈ modifyNth l i f,
      x ∈ l ∨ ∃ y ∈ l, x = f y := by
  intro l
  induction l with
  | nil => intro i x hx; simp [modifyNth] at hx
  | cons a t ih =>
    intro i x hx
    cases i with
    | zero =>
      simp only [modifyNth, List.mem_cons] at hx
      rcases hx with hx | hx
      · exact Or.inr ⟨a, List.mem_cons_self a t, hx⟩
      · exact Or.inl (List.mem_cons_of_mem a hx)
    | succ n =>
      simp only [modifyNth, List.mem_cons] at hx
      rcases hx with hx | hx
      · exact Or.inl (by simp [hx])
      · rcases ih n x hx with h | ⟨y, hy, hxy⟩
        · exact Or.inl (List.mem_cons_of_mem a h)
        · exact Or.inr ⟨y, List.mem_cons_of_mem a hy, hxy⟩

def assessOk (a : Assessment) : Prop :=
  strEndsWith a.name "?" = true ∧
  ∀ o ∈ a.options, o ≠ "" ∧ strEndsWith o "?" = false

theorem headerAssessments_ok (row : List String) :
    ∀ a ∈ headerAssessments row, assessOk a := by
  intro a ha
  unfold headerAssessments at ha
  have := foldl_mem_invariant _ assessOk ?_ _ _ a ha
  · rcases this with h | h
    · simp at h
    · exact h
  · intro acc b r h'
    dsimp only at h'
    split at h'
    · rcases List.mem_append.mp h' with h | h
      · exact Or.inl h
      · simp at h
        subst h
        rename_i hcond
        simp only [Bool.and_eq_true, decide_eq_true_eq] at hcond
        exact Or.inr ⟨hcond.2, by intro o ho; simp at ho⟩
    · exact Or.inl h'

theorem modify_append_ok (acc : List Assessment) (i : Nat) (opt : String)
    (hacc : ∀ x ∈ acc, assessOk x) (hne : opt ≠ "")
    (hq : strEndsWith opt "?" = false) :
    ∀ x ∈ modifyNth acc i
      (fun a => { a with options := a.options ++ [opt] }), assessOk x := by
  intro x hx
  rcases modifyNth_mem _ acc i x hx with hm | ⟨y, hy, hxy⟩
  · exact hacc x hm
  · subst hxy
    rcases hacc y hy with ⟨hn, ho⟩
    refine ⟨hn, ?_⟩
    intro o hoo
    rcases List.mem_append.mp hoo with h' | h'
    · exact ho o h'
    · simp only [List.mem_singleton] at h'
      subst h'
      exact ⟨hne, hq⟩

theorem addOptionsRow_ok (as : List Assessment) (row : List String)
    (h : ∀ a ∈ as, assessOk a) :
    ∀ a ∈ addOptionsRow as row, assessOk a := by
  unfold addOptionsRow
  apply foldl_preserves _ assessOk ?_ _ as h
  intro acc i hacc x hx
  dsimp only at hx
  split at hx
  · exact hacc x hx
  · split at hx
    · split at hx
      · split at hx
        · rename_i hopt
          simp only [Bool.and_eq_true, Bool.not_eq_true',
            decide_eq_true_eq] at hopt
          exact modify_append_ok acc i _ hacc hopt.1 hopt.2 x hx
        · exact hacc x hx
      · split at hx
        · rename_i hopt
          simp only [Bool.and_eq_true, Bool.not_eq_true',
            decide_eq_true_eq] at hopt
          exact modify_append_ok acc i _ hacc hopt.1 hopt.2 x hx
        · exact hacc x hx
    · exact hacc x hx

def qpInv (st : QPState) : Prop :=
  (∀ v ∈ st.vegetables, ∀ a ∈ v.assessments, assessOk a) ∧
  (∀ a ∈ st.assessments, assessOk a)

theorem flushBlock_ok (st : QPState) (h : qpInv st) :
    ∀ v ∈ flushBlock st, ∀ a ∈ v.assessments, assessOk a := by
  intro v hv a ha
  unfold flushBlock at hv
  split at hv
  · rcases List.mem_append.mp hv with h' | h'
    · exact h.1 v h' a ha
    · rcases List.mem_map.mp h' with ⟨fn, _, hveq⟩
      subst hveq
      dsimp only at ha
      rcases List.mem_map.mp ha with ⟨a', ha', haeq⟩
      subst haeq
      rcases h.2 a' ha' with ⟨hn, ho⟩
      exact ⟨hn, ho⟩
  · exact h.1 v hv a ha

theorem qpStep_inv (st : QPState) (row : List String) (h : qpInv st) :
    qpInv (qpStep st row) := by
  unfold qpStep
  split
  · exact h
  · dsimp only
    split
    · refine ⟨?_, ?_⟩
      · intro v hv a ha
        exact flushBlock_ok st h v hv a ha
      · intro a ha
        exact headerAssessments_ok _ a ha
    · split
      · exact ⟨h.1, addOptionsRow_ok _ _ h.2⟩
      · exact h

theorem rawVegetables_ok (data : List (List String)) :
    ∀ v ∈ rawVegetables data, ∀ a ∈ v.assessments, assessOk a := by
  intro v hv
  unfold rawVegetables at hv
  have hinv : qpInv (data.foldl qpStep
      { vegetables := [], names := [], assessments := [] }) := by
    apply foldl_state_inv qpStep qpInv qpStep_inv
    exact ⟨by intro v hv; simp at hv, by intro a ha; simp at ha⟩
  exact flushBlock_ok _ hinv v hv

theorem parseRow_crop (sheetName : String) (row : List String) :
    ∀ r ∈ parseRow sheetName row, r.crop ≠ "" := by
  intro r hr
  unfold parseRow at hr
  dsimp only at hr
  split at hr
  · simp at hr
  · split at hr
    · have := foldl_mem_invariant _ (fun r : ParsedRec => r.crop ≠ "")
        ?_ _ _ r hr
      · rcases this with h | h
        · simp at h
        · exact h
      · intro acc b r' h'
        split at h'
        · rcases List.mem_append.mp h' with h | h
          · exact Or.inl h
          · simp only [List.mem_singleton] at h
            subst h
            rename_i hcond
            unfold multiCropKeep at hcond
            simp only [ne_eq, decide_not, Bool.not_eq_eq_eq_not,
              Bool.not_true, decide_eq_false_iff_not] at hcond
            exact Or.inr hcond
        · exact Or.inl h'
    · split at hr
      · simp only [List.mem_singleton] at hr
        subst hr
        rename_i hcond
        simp only [ne_eq, decide_not, Bool.not_eq_eq_eq_not,
          Bool.not_true, decide_eq_false_iff_not] at hcond
        exact hcond
      · simp at hr

/-- C9: both parsers are total functions of the grid under the JS
undefined-coalescing semantics (missing cells read as empty strings), and
malformed input degrades rather than erroring: every record emitted by
`parseSheetData` has a non-empty crop, a grid without data rows parses to
no records, the empty grid parses to empty qualifier output, and every
assessment surviving `parseQualifiersSheet` has a question name ending in
`?` whose options are all non-empty non-question cells. -/
theorem C9_parsers_total (data : List (List String)) (sheetName : String) :
    (∀ r ∈ parseSheetData data sheetName, r.crop ≠ "") ∧
    (data.length ≤ 1 → parseSheetData data sheetName = []) ∧
    parseQualifiersSheet [] = { vegetables := [], universalQualifiers := [] } ∧
    (∀ v ∈ (parseQualifiersSheet data).vegetables, ∀ a ∈ v.assessments,
      strEndsWith a.name "?" = true ∧
      ∀ o ∈ a.options, o ≠ "" ∧ strEndsWith o "?" = false) := by
  refine ⟨?_, ?_, rfl, ?_⟩
  · intro r hr
    unfold parseSheetData at hr
    split at hr
    · simp at hr
    · have := foldl_mem_invariant _ (fun r : ParsedRec => r.crop ≠ "")
        ?_ _ _ r hr
      · rcases this with h | h
        · simp at h
        · exact h
      · intro acc b r' h'
        rcases List.mem_append.mp h' with h | h
        · exact Or.inl h
        · exact Or.inr (parseRow_crop _ _ _ h)
  · intro hlen
    match data, hlen with
    | [], _ => rfl
    | [x], _ => rfl
  · intro v hv a ha
    unfold parseQualifiersSheet at hv
    split at hv
    · simp at hv
    · dsimp only at hv
      split at hv
      · dsimp only at hv
        rcases List.mem_map.mp hv with ⟨v', hv', hveq⟩
        subst hveq
        dsimp only at ha
        have hmem := List.mem_filter.mp ha
        have hraw : v' ∈ rawVegetables data := by
          have := List.mem_filter.mp hv'
          exact this.1
        exact rawVegetables_ok data v' hraw a hmem.1
      · simp only [] at hv
        have := List.mem_filter.mp (by
          unfold filteredVegetables at hv
          exact hv)
        exact rawVegetables_ok data v this.1 a ha

/-- The record emitted for the single data row of the C9 witness grid. -/
def c9rec : ParsedRec :=
  { field := "F", bed := "A1", crop := "Tomato", variety := "Roma",
    trays := "4", rows := "2", date := "5/1", notes := "n" }

theorem C9_witness :
    c9rec.crop ≠ "" ∧ parseSheetData [["h"]] "F" = [] :=
  ⟨(C9_parsers_total [["h"], ["A1", "Tomato:Roma", "4", "2", "5/1", "n"]]
      "F").1 c9rec (by decide),
   (C9_parsers_total [["h"]] "F").2.1 (by decide)⟩

/-! ### C1: full partition replace on sync -/

/-- C1: when `syncSheetData` is given a non-empty batch of parsed records
that all share the field of the first record, the stored crops of that
field partition afterwards are exactly the new records (everything
pre-existing in the partition is deleted, all new records inserted), the
returned count is the number of inserted records and the returned action
reports whether the snapshot existed; hence a bed absent from a re-sync
batch no longer occurs among the stored records of that field. -/
theorem C1_syncSheetData_full_replace
    (spreadsheetId range : String) (data : List (List String))
    (first : ParsedRec) (rest : List ParsedRec) (now : Int) (st : SyncState)
    (hsame : ∀ r ∈ first :: rest, r.field = first.field) :
    (syncSheetData spreadsheetId range data (some (first :: rest)) now
        st).2.crops.filter (fun c => c.field = first.field) =
      (first :: rest).map
        (fun r => { toParsedRec := r, lastSynced := now }) ∧
    (syncSheetData spreadsheetId range data (some (first :: rest)) now
        st).1.cropsCount = (first :: rest).length ∧
    (syncSheetData spreadsheetId range data (some (first :: rest)) now
        st).1.action =
      (if (st.sheets.find? (fun s =>
          s.spreadsheetId = spreadsheetId && s.range = range)).isSome
        then "updated" else "created") ∧
    (∀ b : String, (∀ r ∈ first :: rest, r.bed ≠ b) →
      ∀ c ∈ (syncSheetData spreadsheetId range data (some (first :: rest)) now
          st).2.crops, c.field = first.field → c.bed ≠ b) := by
  unfold syncSheetData
  dsimp only
  refine ⟨?_, rfl, ?_, ?_⟩
  · rw [List.filter_append]
    have hleft : (st.crops.filter
        (fun c => !(c.field = first.field))).filter
          (fun c => c.field = first.field) = [] := by
      rw [List.filter_filter]
      apply List.filter_eq_nil_iff.mpr
      intro c _
      by_cases h : c.field = first.field <;> simp [h]
    have hright : ((first :: rest).map
        (fun r => ({ toParsedRec := r, lastSynced := now } : CropRec))).filter
          (fun c => c.field = first.field) =
        (first :: rest).map
          (fun r => ({ toParsedRec := r, lastSynced := now } : CropRec)) := by
      apply List.filter_eq_self.mpr
      intro c hc
      rcases List.mem_map.mp hc with ⟨r, hr, hceq⟩
      subst hceq
      simp [hsame r hr]
    rw [hleft, hright, List.nil_append]
  · split <;> rfl
  · intro b hb c hc hcf
    rcases List.mem_append.mp hc with h | h
    · have := (List.mem_filter.mp h).2
      simp only [Bool.not_eq_true', decide_eq_false_iff_not] at this
      exact absurd hcf this
    · rcases List.mem_map.mp h with ⟨r, hr, hceq⟩
      subst hceq
      exact hb r hr

/-- The parsed record of the C1 witness sync batch. -/
def c1new : ParsedRec :=
  { field := "Field 3", bed := "A1", crop := "Tomato", variety := "",
    trays := "", rows := "", date := "", notes := "" }

/-- A pre-existing stored crop of the same field partition (bed "OLD"). -/
def c1old : CropRec :=
  { field := "Field 3", bed := "OLD", crop := "Kale", variety := "",
    trays := "", rows := "", date := "", notes := "", lastSynced := 0 }

/-- The C1 witness store before the sync. -/
def c1st : SyncState :=
  { sheets := [], crops := [c1old] }

theorem C1_witness :
    (syncSheetData "S" "Field 3!A:ZZ" [] (some [c1new]) 5
        c1st).2.crops.filter (fun c => c.field = c1new.field) =
      [{ toParsedRec := c1new, lastSynced := 5 }] ∧
    ∀ c ∈ (syncSheetData "S" "Field 3!A:ZZ" [] (some [c1new]) 5 c1st).2.crops,
      c.field = c1new.field → c.bed ≠ "OLD" :=
  ⟨(C1_syncSheetData_full_replace "S" "Field 3!A:ZZ" [] c1new [] 5 c1st
      (by decide)).1,
   (C1_syncSheetData_full_replace "S" "Field 3!A:ZZ" [] c1new [] 5 c1st
      (by decide)).2.2.2 "OLD" (by decide)⟩

/-! ### C2: the per-log planning signal -/

theorem responseStep_keeps_some (b : PlanningBucket) :
    ∀ (rs : List Response) (qs : List (String × List (String × Nat))),
      (rs.foldl responseStep (qs, some b)).2 = some b := by
  intro rs
  induction rs with
  | nil => intro qs; rfl
  | cons r t ih =>
    intro qs
    rw [List.foldl_cons]
    have : responseStep (qs, some b) r =
        ((responseStep (qs, some b) r).1, some b) := by
      unfold responseStep
      simp
    rw [this]
    exact ih _

theorem responsesBucket_eq_find :
    ∀ (responses : List Response) (qs0 : List (String × List (String × Nat))),
      (responses.foldl responseStep (qs0, none)).2 =
        (responses.find? (fun r => isPlanningQuestion r.question)).map
          (fun r => getPlanningBucket r.answer) := by
  intro responses
  induction responses with
  | nil => intro qs0; rfl
  | cons r t ih =>
    intro qs0
    rw [List.foldl_cons]
    by_cases h : isPlanningQuestion r.question = true
    · have hstep : responseStep (qs0, none) r =
          ((responseStep (qs0, none) r).1, some (getPlanningBucket r.answer)) := by
        unfold responseStep
        simp [h]
      rw [hstep, responseStep_keeps_some]
      simp [List.find?_cons, h]
    · have hstep : responseStep (qs0, none) r =
          ((responseStep (qs0, none) r).1, none) := by
        unfold responseStep
        simp [h]
      rw [hstep, ih]
      simp [List.find?_cons, h]

theorem getPlanningBucket_cases (answer : String) :
    (getPlanningBucket answer = .under ↔
      underKw (normalizeLabel answer) = true) ∧
    (getPlanningBucket answer = .over ↔
      (underKw (normalizeLabel answer) = false ∧
       overKw (normalizeLabel answer) = true)) ∧
    (getPlanningBucket answer = .on_target ↔
      (underKw (normalizeLabel answer) = false ∧
       overKw (normalizeLabel answer) = false ∧
       targetKw (normalizeLabel answer) = true)) ∧
    (getPlanningBucket answer = .unknown ↔
      (underKw (normalizeLabel answer) = false ∧
       overKw (normalizeLabel answer) = false ∧
       targetKw (normalizeLabel answer) = false)) := by
  unfold getPlanningBucket
  dsimp only
  by_cases h1 : underKw (normalizeLabel answer) = true
  · simp [h1]
  · by_cases h2 : overKw (normalizeLabel answer) = true
    · simp [h1, h2]
    · by_cases h3 : targetKw (normalizeLabel answer) = true
      · simp [h1, h2, h3]
      · simp [h1, h2, h3]

theorem overview_filter_none (ls : List QualityLog) :
    (ls.filter (fun log =>
      (match optStr none with
       | some c => log.crop = c
       | none => true) &&
      (match optStr none with
       | some f => log.field = f
       | none => true) &&
      (match (optStr none).map getStartTimestampFromDate with
       | some (some ts) => decide (ts ≤ log.assessmentDate)
       | _ => true) &&
      (match (optStr none).map getEndTimestampFromDate with
       | some (some ts) => decide (log.assessmentDate ≤ ts)
       | _ => true))) = ls :=
  List.filter_eq_self.mpr (fun _ _ => rfl)

theorem logStep_no_signal (log : QualityLog)
    (hnone : log.responses.find? (fun r => isPlanningQuestion r.question) = none)
    (A : AccState) :
    logStep A log = { A with
      byCrop := bumpCount A.byCrop log.crop,
      byField := bumpCount A.byField log.field,
      logsByWeek := bumpCount A.logsByWeek
        (dateKey (startOfWeekUtc log.assessmentDate)),
      questionStats :=
        (log.responses.foldl responseStep (A.questionStats, none)).1 } := by
  have hrs2 : (log.responses.foldl responseStep (A.questionStats, none)).2 =
      none := by
    rw [responsesBucket_eq_find, hnone]
    rfl
  unfold logStep
  dsimp only
  rw [hrs2]

/-- C2: a log yields at most one planning data point — the bucket tracked by
the response fold is exactly the classified answer of the first response
whose question matches planting-quantity intent (later matches ignored);
the classification precedence is under, then over, then on-target, else
unknown; and a log with no matching question still increments
`totals.totalLogs` while leaving every planning aggregate unchanged. -/
theorem C2_planning_signal :
    (∀ (responses : List Response)
       (qs0 : List (String × List (String × Nat))),
      (responses.foldl responseStep (qs0, none)).2 =
        (responses.find? (fun r => isPlanningQuestion r.question)).map
          (fun r => getPlanningBucket r.answer)) ∧
    (∀ answer : String,
      (getPlanningBucket answer = .under ↔
        underKw (normalizeLabel answer) = true) ∧
      (getPlanningBucket answer = .over ↔
        (underKw (normalizeLabel answer) = false ∧
         overKw (normalizeLabel answer) = true)) ∧
      (getPlanningBucket answer = .on_target ↔
        (underKw (normalizeLabel answer) = false ∧
         overKw (normalizeLabel answer) = false ∧
         targetKw (normalizeLabel answer) = true)) ∧
      (getPlanningBucket answer = .unknown ↔
        (underKw (normalizeLabel answer) = false ∧
         overKw (normalizeLabel answer) = false ∧
         targetKw (normalizeLabel answer) = false))) ∧
    (∀ (logs : List QualityLog) (log : QualityLog) (crops : List CropRec),
      log.responses.find? (fun r => isPlanningQuestion r.question) = none →
      (getAnalyticsOverview (logs ++ [log]) crops
          none none none none).totals.totalLogs = logs.length + 1 ∧
      (getAnalyticsOverview (logs ++ [log]) crops
          none none none none).planning =
        (getAnalyticsOverview logs crops none none none none).planning) := by
  refine ⟨responsesBucket_eq_find, getPlanningBucket_cases, ?_⟩
  intro logs log crops hnone
  constructor
  · unfold getAnalyticsOverview
    dsimp only
    rw [overview_filter_none, List.length_append]
    rfl
  · unfold getAnalyticsOverview
    dsimp only
    rw [overview_filter_none, overview_filter_none, List.foldl_append]
    simp only [List.foldl_cons, List.foldl_nil]
    rw [logStep_no_signal log hnone]

/-- The C2 witness log: one response whose question has no planning intent. -/
def c2log : QualityLog :=
  { crop := "Kale", variety := "", field := "F", bed := "",
    datePlanted := "", trays := "", rows := "", plantingNotes := "",
    responses := [{ question := "Color?", answer := "green" }],
    assessmentDate := 0, createdAt := 0 }

theorem C2_witness :
    (getAnalyticsOverview ([] ++ [c2log]) [] none none none
        none).totals.totalLogs = ([] : List QualityLog).length + 1 ∧
    (getAnalyticsOverview ([] ++ [c2log]) [] none none none none).planning =
      (getAnalyticsOverview [] [] none none none none).planning :=
  C2_planning_signal.2.2 [] c2log [] (by decide)

/-! ### C8: planning rates and balance -/

def pstatsOk (s : PStats) : Prop :=
  s.total = s.under + s.onTarget + s.over + s.unknown ∧ 1 ≤ s.total

theorem incPStats_ok (b : PlanningBucket) (s : PStats)
    (h : s.total = s.under + s.onTarget + s.over + s.unknown) :
    pstatsOk (incPStats b s) := by
  cases b <;> simp [incPStats, pstatsOk] <;> omega

theorem mem_insertSorted {α : Type} (le : α → α → Bool) (a x : α) :
    ∀ l : List α, x ∈ insertSorted le a l ↔ x = a ∨ x ∈ l := by
  intro l
  induction l with
  | nil => simp [insertSorted]
  | cons b t ih =>
    by_cases h : le a b = true
    · simp [insertSorted, h, List.mem_cons]
    · simp only [insertSorted, h, Bool.false_eq_true, if_false,
        List.mem_cons, ih]
      tauto

theorem mem_stableSortBy {α : Type} (le : α → α → Bool) (x : α) :
    ∀ l : List α, x ∈ stableSortBy le l ↔ x ∈ l := by
  intro l
  induction l with
  | nil => simp [stableSortBy]
  | cons b t ih =>
    unfold stableSortBy at *
    simp only [List.foldr_cons, mem_insertSorted, List.mem_cons, ih]

def accPlanningOk (acc : AccState) : Prop :=
  (∀ p ∈ acc.planningByCrop, pstatsOk p.2) ∧
  (∀ p ∈ acc.planningByField, pstatsOk p.2) ∧
  (∀ p ∈ acc.planningByWeek, pstatsOk p.2) ∧
  acc.planningSampleSize =
    acc.underCount + acc.onTargetCount + acc.overCount + acc.unknownCount

theorem updateStats_ok (m : List (String × PStats)) (k : String)
    (b : PlanningBucket) (h : ∀ p ∈ m, pstatsOk p.2) :
    ∀ p ∈ updateVal (ensureKey m k {}) k (incPStats b), pstatsOk p.2 := by
  intro p hp
  rcases List.mem_map.mp hp with ⟨q, hq, hpe⟩
  have hqok : pstatsOk q.2 ∨ q = (k, ({} : PStats)) := by
    unfold ensureKey at hq
    split at hq
    · exact Or.inl (h q hq)
    · rcases List.mem_append.mp hq with h' | h'
      · exact Or.inl (h q h')
      · simp at h'
        exact Or.inr h'
  by_cases hk : (q.1 = k)
  · rw [if_pos (by simp [hk])] at hpe
    subst hpe
    rcases hqok with hok | hdef
    · exact incPStats_ok b q.2 hok.1
    · rw [hdef]
      exact incPStats_ok b {} rfl
  · rw [if_neg (by simp [hk])] at hpe
    subst hpe
    rcases hqok with hok | hdef
    · exact hok
    · exact absurd (by rw [hdef]) hk

theorem logStep_planning_ok (acc : AccState) (log : QualityLog)
    (h : accPlanningOk acc) : accPlanningOk (logStep acc log) := by
  unfold logStep
  dsimp only
  split
  · exact h
  · rename_i b _
    refine ⟨updateStats_ok _ _ _ h.1, updateStats_ok _ _ _ h.2.1,
      updateStats_ok _ _ _ h.2.2.1, ?_⟩
    have hsum := h.2.2.2
    cases b <;> simp <;> omega

theorem overviewAcc_ok (logs : List QualityLog) :
    accPlanningOk (logs.foldl logStep {}) := by
  apply foldl_state_inv logStep accPlanningOk
  · intro s blog hI
    exact logStep_planning_ok s blog hI
  · exact ⟨by intro p hp; simp at hp, by intro p hp; simp at hp,
      by intro p hp; simp at hp, rfl⟩

theorem mkPlanningEntry_ok (key : String) (s : PStats) (h : pstatsOk s) :
    (mkPlanningEntry key s).total =
      (mkPlanningEntry key s).under + (mkPlanningEntry key s).onTarget +
      (mkPlanningEntry key s).over + (mkPlanningEntry key s).unknown ∧
    0 < (mkPlanningEntry key s).total ∧
    (mkPlanningEntry key s).underRate =
      ((mkPlanningEntry key s).under : ℚ) /
        ((mkPlanningEntry key s).total : ℚ) * 100 ∧
    (mkPlanningEntry key s).onTargetRate =
      ((mkPlanningEntry key s).onTarget : ℚ) /
        ((mkPlanningEntry key s).total : ℚ) * 100 ∧
    (mkPlanningEntry key s).overRate =
      ((mkPlanningEntry key s).over : ℚ) /
        ((mkPlanningEntry key s).total : ℚ) * 100 ∧
    (mkPlanningEntry key s).balance =
      (mkPlanningEntry key s).underRate - (mkPlanningEntry key s).overRate := by
  have ht : ¬ s.total = 0 := by have := h.2; omega
  unfold mkPlanningEntry
  dsimp only
  rw [if_neg ht]
  exact ⟨h.1, by have := h.2; omega, rfl, rfl, rfl, rfl⟩

theorem mkTrendEntry_ok (key : String) (s : PStats) (h : pstatsOk s) :
    (mkTrendEntry key s).total =
      (mkTrendEntry key s).under + (mkTrendEntry key s).onTarget +
      (mkTrendEntry key s).over + (mkTrendEntry key s).unknown ∧
    0 < (mkTrendEntry key s).total ∧
    (mkTrendEntry key s).underRate =
      ((mkTrendEntry key s).under : ℚ) /
        ((mkTrendEntry key s).total : ℚ) * 100 ∧
    (mkTrendEntry key s).overRate =
      ((mkTrendEntry key s).over : ℚ) /
        ((mkTrendEntry key s).total : ℚ) * 100 ∧
    (mkTrendEntry key s).balance =
      (mkTrendEntry key s).underRate - (mkTrendEntry key s).overRate := by
  have ht : ¬ s.total = 0 := by have := h.2; omega
  unfold mkTrendEntry
  dsimp only
  rw [if_neg ht]
  exact ⟨h.1, by have := h.2; omega, rfl, rfl, rfl⟩

/-- C8: at every granularity of the planning aggregates, the rates are the
bucket counts as percentages of that granularity's planning total (which
includes unknown-classified logs: total is always the sum of the four
buckets), and the derived balance equals underRate minus overRate — for the
overall section this holds although the code computes balance from
`(under - over) / sample`, because the two formulas agree over the
rationals. -/
theorem C8_planning_rates (logs : List QualityLog) (crops : List CropRec)
    (sd ed c f : Option String) :
    (∀ e ∈ (getAnalyticsOverview logs crops sd ed c f).planning.byCrop,
      e.total = e.under + e.onTarget + e.over + e.unknown ∧ 0 < e.total ∧
      e.underRate = (e.under : ℚ) / (e.total : ℚ) * 100 ∧
      e.onTargetRate = (e.onTarget : ℚ) / (e.total : ℚ) * 100 ∧
      e.overRate = (e.over : ℚ) / (e.total : ℚ) * 100 ∧
      e.balance = e.underRate - e.overRate) ∧
    (∀ e ∈ (getAnalyticsOverview logs crops sd ed c f).planning.byField,
      e.total = e.under + e.onTarget + e.over + e.unknown ∧ 0 < e.total ∧
      e.underRate = (e.under : ℚ) / (e.total : ℚ) * 100 ∧
      e.onTargetRate = (e.onTarget : ℚ) / (e.total : ℚ) * 100 ∧
      e.overRate = (e.over : ℚ) / (e.total : ℚ) * 100 ∧
      e.balance = e.underRate - e.overRate) ∧
    (∀ e ∈ (getAnalyticsOverview logs crops sd ed c f).planning.trend,
      e.total = e.under + e.onTarget + e.over + e.unknown ∧ 0 < e.total ∧
      e.underRate = (e.under : ℚ) / (e.total : ℚ) * 100 ∧
      e.overRate = (e.over : ℚ) / (e.total : ℚ) * 100 ∧
      e.balance = e.underRate - e.overRate) ∧
    (getAnalyticsOverview logs crops sd ed c f).planning.sampleSize =
      (getAnalyticsOverview logs crops sd ed c f).planning.underCount +
      (getAnalyticsOverview logs crops sd ed c f).planning.onTargetCount +
      (getAnalyticsOverview logs crops sd ed c f).planning.overCount +
      (getAnalyticsOverview logs crops sd ed c f).planning.unknownCount ∧
    (0 < (getAnalyticsOverview logs crops sd ed c f).planning.sampleSize →
      (getAnalyticsOverview logs crops sd ed c f).planning.underRate =
        ((getAnalyticsOverview logs crops sd ed c f).planning.underCount : ℚ) /
          ((getAnalyticsOverview logs crops sd ed c f).planning.sampleSize : ℚ)
          * 100 ∧
      (getAnalyticsOverview logs crops sd ed c f).planning.onTargetRate =
        ((getAnalyticsOverview logs crops sd ed c f).planning.onTargetCount : ℚ) /
          ((getAnalyticsOverview logs crops sd ed c f).planning.sampleSize : ℚ)
          * 100 ∧
      (getAnalyticsOverview logs crops sd ed c f).planning.overRate =
        ((getAnalyticsOverview logs crops sd ed c f).planning.overCount : ℚ) /
          ((getAnalyticsOverview logs crops sd ed c f).planning.sampleSize : ℚ)
          * 100) ∧
    (getAnalyticsOverview logs crops sd ed c f).planning.balance =
      (getAnalyticsOverview logs crops sd ed c f).planning.underRate -
      (getAnalyticsOverview logs crops sd ed c f).planning.overRate := by
  unfold getAnalyticsOverview
  dsimp only
  refine ⟨?_, ?_, ?_, (overviewAcc_ok _).2.2.2, ?_, ?_⟩
  · intro e he
    rw [mem_stableSortBy] at he
    rcases List.mem_map.mp he with ⟨p, hp, hpe⟩
    subst hpe
    exact mkPlanningEntry_ok p.1 p.2 ((overviewAcc_ok _).1 p hp)
  · intro e he
    rw [mem_stableSortBy] at he
    rcases List.mem_map.mp he with ⟨p, hp, hpe⟩
    subst hpe
    exact mkPlanningEntry_ok p.1 p.2 ((overviewAcc_ok _).2.1 p hp)
  · intro e he
    rcases List.mem_map.mp he with ⟨p, hp, hpe⟩
    rw [mem_stableSortBy] at hp
    subst hpe
    exact mkTrendEntry_ok p.1 p.2 ((overviewAcc_ok _).2.2.1 p hp)
  · intro hpos
    exact ⟨by rw [if_pos hpos], by rw [if_pos hpos], by rw [if_pos hpos]⟩
  · split_ifs with h
    · ring
    · norm_num

/-- One C8 witness log answering the planning question with `a`. -/
def c8log (a : String) : QualityLog :=
  { crop := "Tomato", variety := "", field := "F1", bed := "",
    datePlanted := "", trays := "", rows := "", plantingNotes := "",
    responses := [{ question := "Planting quantity?", answer := a }],
    assessmentDate := 0, createdAt := 0 }

/-- Four planning logs for one crop: three under, one on target. -/
def c8logs : List QualityLog :=
  [c8log "too little", c8log "too little", c8log "too little",
   c8log "just right"]

/-- The per-crop planning chart entry those four logs produce. -/
def c8entry : PlanningChartEntry :=
  mkPlanningEntry "Tomato"
    { under := 3, onTarget := 1, over := 0, unknown := 0, total := 4 }

theorem C8_witness :
    c8entry.balance = c8entry.underRate - c8entry.overRate ∧
    c8entry.balance = 75 :=
  ⟨((C8_planning_rates c8logs [] none none none none).1 c8entry (by
      have h : (getAnalyticsOverview c8logs [] none none none
          none).planning.byCrop = [c8entry] := rfl
      rw [h]
      exact List.mem_singleton.mpr rfl)).2.2.2.2.2,
   by norm_num [c8entry, mkPlanningEntry]⟩

/-! ### C6: multi-crop bed splitting -/

theorem foldl_pushIf_filterMap {α β : Type} (P : β → Bool) (g : β → α) :
    ∀ (l : List β) (init : List α),
      l.foldl (fun acc b => if P b then acc ++ [g b] else acc) init =
        init ++ l.filterMap (fun b => if P b then some (g b) else none) := by
  intro l
  induction l with
  | nil => intro init; simp
  | cons b t ih =>
    intro init
    rw [List.foldl_cons, List.filterMap_cons]
    by_cases h : P b = true
    · simp only [h, if_true]
      rw [ih]
      simp
    · simp only [h, Bool.false_eq_true, if_false]
      rw [ih]

/-- C6 counterexample: with crop cell "A / B / C" and trays cell "1 / 2"
the split counts differ (3 vs 2), yet the emitted trays are
["1", "2", "1"] — the second sub-entry keeps its own token "2" instead of
reusing the first token as the claim states. -/
theorem C6_counterexample :
    ((strSplitOn "A / B / C" " / ").map jsTrim).length = 3 ∧
    ((strSplitOn "1 / 2" " / ").map jsTrim).length = 2 ∧
    (parseSheetData [["h"], ["B1", "A / B / C", "1 / 2", "r", "d", "n"]]
        "F").map (fun r => r.trays) = ["1", "2", "1"] ∧
    ¬ ((parseSheetData [["h"], ["B1", "A / B / C", "1 / 2", "r", "d", "n"]]
        "F").all (fun r => r.trays = "1") = true) := by
  refine ⟨by decide, by decide, by decide, by decide⟩

/-- C6 (amended): a row whose crop cell contains " / " is split into one
record per sub-entry with non-empty resolved crop, each sharing the parent
row's bed/rows/date/notes and carrying the trays token
`traysParts[i] || traysParts[0] || ""` — sub-entry `i` takes its own trays
token when present and non-empty, and falls back to the first token only
beyond the trays list (or when its own token is empty); replanting
detection is not applied to these records. -/
theorem C6_amended (name : String) (hd : List String)
    (bed cv trays rowsc date notes : String)
    (h : strIncludes cv " / " = true) :
    parseSheetData [hd, [bed, cv, trays, rowsc, date, notes]] name =
      (List.range ((strSplitOn cv " / ").map jsTrim).length).filterMap
        (fun i =>
          if multiCropKeep ((strSplitOn cv " / ").map jsTrim) i then
            some (mkMultiCropRec name bed rowsc date notes
              ((strSplitOn cv " / ").map jsTrim)
              (if strIncludes trays " / " then
                (strSplitOn trays " / ").map jsTrim
               else [jsOr trays ""]) i)
          else none) ∧
    (∀ r ∈ parseSheetData [hd, [bed, cv, trays, rowsc, date, notes]] name,
      r.bed = jsOr bed "" ∧ r.rows = jsOr rowsc "" ∧ r.date = jsOr date "" ∧
      r.notes = jsOr notes "" ∧ r.replantedFrom = none) := by
  have hcv : ¬ (cv = "") := by
    intro he
    subst he
    exact absurd h (by decide)
  have hps : parseSheetData [hd, [bed, cv, trays, rowsc, date, notes]] name =
      parseRow name [bed, cv, trays, rowsc, date, notes] := by
    unfold parseSheetData
    simp
  have hmain : parseSheetData [hd, [bed, cv, trays, rowsc, date, notes]] name =
      (List.range ((strSplitOn cv " / ").map jsTrim).length).filterMap
        (fun i =>
          if multiCropKeep ((strSplitOn cv " / ").map jsTrim) i then
            some (mkMultiCropRec name bed rowsc date notes
              ((strSplitOn cv " / ").map jsTrim)
              (if strIncludes trays " / " then
                (strSplitOn trays " / ").map jsTrim
               else [jsOr trays ""]) i)
          else none) := by
    rw [hps]
    unfold parseRow
    simp only [List.getD_cons_zero, List.getD_cons_succ]
    rw [if_neg (by simp [hcv]), if_pos h]
    exact (foldl_pushIf_filterMap _ _ _ _).trans (by rw [List.nil_append])
  refine ⟨hmain, ?_⟩
  intro r hr
  rw [hmain] at hr
  rcases List.mem_filterMap.mp hr with ⟨i, _, hsome⟩
  split at hsome
  · have : r = mkMultiCropRec name bed rowsc date notes
        ((strSplitOn cv " / ").map jsTrim)
        (if strIncludes trays " / " then (strSplitOn trays " / ").map jsTrim
         else [jsOr trays ""]) i := by
      injection hsome with he
      exact he.symm
    subst this
    exact ⟨rfl, rfl, rfl, rfl, rfl⟩
  · exact absurd hsome (by simp)

theorem C6_witness :
    (∀ r ∈ parseSheetData
        [["h"], ["A1", "Cucumber: Mini Me / Cucumber: Tasty Green",
          "1 / 0.2", "2", "5/1", "n"]] "F",
      r.bed = jsOr "A1" "" ∧ r.rows = jsOr "2" "" ∧ r.date = jsOr "5/1" "" ∧
      r.notes = jsOr "n" "" ∧ r.replantedFrom = none) ∧
    (parseSheetData
        [["h"], ["A1", "Cucumber: Mini Me / Cucumber: Tasty Green",
          "1 / 0.2", "2", "5/1", "n"]] "F").map
      (fun r => (r.crop, r.variety, r.trays)) =
      [("Cucumber", "Mini Me", "1"), ("Cucumber", "Tasty Green", "0.2")] :=
  ⟨(C6_amended "F" ["h"] "A1" "Cucumber: Mini Me / Cucumber: Tasty Green"
      "1 / 0.2" "2" "5/1" "n" (by decide)).2,
   by decide⟩

/-! ### C4: universal-qualifier reconciliation -/

theorem getLast?_mem {α : Type} {l : List α} {x : α}
    (h : l.getLast? = some x) : x ∈ l := by
  rcases List.mem_getLast?_eq_getLast (Option.mem_def.mpr h) with ⟨hne, he⟩
  rw [he]
  exact List.getLast_mem hne

theorem uqFreshId_gt : ∀ (db : List UQRec), ∀ r ∈ db, r.id < uqFreshId db := by
  intro db
  unfold uqFreshId
  induction db with
  | nil => intro r hr; simp at hr
  | cons a t ih =>
    intro r hr
    rcases List.mem_cons.mp hr with h | h
    · subst h
      simp only [List.foldr_cons]
      omega
    · have := ih r h
      simp only [List.foldr_cons]
      have hle : t.foldr (fun r m => max r.id m) 0 ≤
          max a.id (t.foldr (fun r m => max r.id m) 0) := Nat.le_max_right _ _
      omega

theorem dbPatchUQ_pres (db : List UQRec) (i : Nat) (q : UQInput) (now : Int) :
    (∀ r ∈ db, ∃ r' ∈ dbPatchUQ db i (uqPatchFn q now),
      r'.id = r.id ∧ r'.name = r.name) ∧
    (∀ r' ∈ dbPatchUQ db i (uqPatchFn q now),
      ∃ r ∈ db, r'.id = r.id ∧ r'.name = r.name) := by
  constructor
  · intro r hr
    refine ⟨if r.id = i then uqPatchFn q now r else r, ?_, ?_, ?_⟩
    · exact List.mem_map.mpr ⟨r, hr, rfl⟩
    · split
      · rfl
      · rfl
    · split
      · rfl
      · rfl
  · intro r' hr'
    rcases List.mem_map.mp hr' with ⟨r, hr, hre⟩
    refine ⟨r, hr, ?_, ?_⟩
    · rw [← hre]
      split
      · rfl
      · rfl
    · rw [← hre]
      split
      · rfl
      · rfl

def uqUpsertInv (store : List UQRec) (qualifiers : List UQInput)
    (db : List UQRec) : Prop :=
  (∀ ex ∈ store, ∃ r ∈ db, r.id = ex.id ∧ r.name = ex.name) ∧
  (∀ r ∈ db, ∀ ex ∈ store, r.id = ex.id → r.name = ex.name) ∧
  (∀ r ∈ db, (∀ ex ∈ store, r.id ≠ ex.id) → ∃ q ∈ qualifiers, q.name = r.name)

theorem uqUpsertStep_inv (store : List UQRec) (qualifiers : List UQInput)
    (now : Int) (db : List UQRec) (q : UQInput) (hq : q ∈ qualifiers)
    (h : uqUpsertInv store qualifiers db) :
    uqUpsertInv store qualifiers (uqUpsertStep store now db q) := by
  unfold uqUpsertStep
  split
  · rename_i ex0 heq
    have hpres := dbPatchUQ_pres db ex0.id q now
    refine ⟨?_, ?_, ?_⟩
    · intro ex hex
      rcases h.1 ex hex with ⟨r, hr, hid, hname⟩
      rcases hpres.1 r hr with ⟨r', hr', hid', hname'⟩
      exact ⟨r', hr', by rw [hid', hid], by rw [hname', hname]⟩
    · intro r' hr' ex hex hide
      rcases hpres.2 r' hr' with ⟨r, hr, hid', hname'⟩
      rw [hname']
      exact h.2.1 r hr ex hex (by rw [← hid', hide])
    · intro r' hr' hnone
      rcases hpres.2 r' hr' with ⟨r, hr, hid', hname'⟩
      rw [hname']
      refine h.2.2 r hr ?_
      intro ex hex
      rw [← hid']
      exact hnone ex hex
  · refine ⟨?_, ?_, ?_⟩
    · intro ex hex
      rcases h.1 ex hex with ⟨r, hr, hid, hname⟩
      exact ⟨r, List.mem_append_left _ hr, hid, hname⟩
    · intro r' hr' ex hex hide
      rcases List.mem_append.mp hr' with hl | hr0
      · exact h.2.1 r' hl ex hex hide
      · simp only [List.mem_singleton] at hr0
        subst hr0
        rcases h.1 ex hex with ⟨r, hr, hid, _⟩
        have h1 := uqFreshId_gt db r hr
        simp only at hide
        omega
    · intro r' hr' hnone
      rcases List.mem_append.mp hr' with hl | hr0
      · exact h.2.2 r' hl hnone
      · simp only [List.mem_singleton] at hr0
        subst hr0
        exact ⟨q, hq, rfl⟩

theorem uqUpsert_fold_inv (store : List UQRec) (qualifiers : List UQInput)
    (now : Int) :
    ∀ (proc : List UQInput), (∀ q ∈ proc, q ∈ qualifiers) →
    ∀ db, uqUpsertInv store qualifiers db →
      uqUpsertInv store qualifiers
        (proc.foldl (uqUpsertStep store now) db) := by
  intro proc
  induction proc with
  | nil => intro _ db h; exact h
  | cons q t ih =>
    intro hsub db h
    rw [List.foldl_cons]
    exact ih (fun q' hq' => hsub q' (List.mem_cons_of_mem q hq'))
      _ (uqUpsertStep_inv store qualifiers now db q
        (hsub q (List.mem_cons_self q t)) h)

theorem uqUpsert_name_monotone (store : List UQRec) (now : Int) (n : String) :
    ∀ (proc : List UQInput) (db : List UQRec),
      (∃ r ∈ db, r.name = n) →
      ∃ r ∈ proc.foldl (uqUpsertStep store now) db, r.name = n := by
  intro proc
  induction proc with
  | nil => intro db h; exact h
  | cons q t ih =>
    intro db h
    rw [List.foldl_cons]
    apply ih
    rcases h with ⟨r, hr, hname⟩
    unfold uqUpsertStep
    split
    · rename_i ex0 heq
      rcases (dbPatchUQ_pres db ex0.id q now).1 r hr with ⟨r', hr', _, hname'⟩
      exact ⟨r', hr', by rw [hname', hname]⟩
    · exact ⟨r, List.mem_append_left _ hr, hname⟩

theorem uqUpsert_fold_present (store : List UQRec) (qualifiers : List UQInput)
    (now : Int) :
    ∀ (proc : List UQInput), (∀ q ∈ proc, q ∈ qualifiers) →
    ∀ db, uqUpsertInv store qualifiers db →
      ∀ q ∈ proc, ∃ r ∈ proc.foldl (uqUpsertStep store now) db,
        r.name = q.name := by
  intro proc
  induction proc with
  | nil => intro _ db _ q hq; simp at hq
  | cons q0 t ih =>
    intro hsub db h q hq
    rw [List.foldl_cons]
    rcases List.mem_cons.mp hq with he | ht
    · subst he
      apply uqUpsert_name_monotone
      unfold uqUpsertStep
      split
      · rename_i ex0 heq
        have hex0 : ex0 ∈ store ∧ ex0.name = q.name := by
          unfold existingMapGet at heq
          have hmem := getLast?_mem heq
          constructor
          · exact (List.mem_filter.mp hmem).1
          · have := (List.mem_filter.mp hmem).2
            simpa using this
        rcases h.1 ex0 hex0.1 with ⟨r, hr, hid, hname⟩
        rcases (dbPatchUQ_pres db ex0.id q now).1 r hr with ⟨r', hr', _, hname'⟩
        exact ⟨r', hr', by rw [hname', hname, hex0.2]⟩
      · refine ⟨_, List.mem_append_right _ (List.mem_singleton_self _), ?_⟩
        rfl
    · exact ih (fun q' hq' => hsub q' (List.mem_cons_of_mem q0 hq'))
        (uqUpsertStep store now db q0)
        (uqUpsertStep_inv store qualifiers now db q0
          (hsub q0 (List.mem_cons_self q0 t)) h) q ht

theorem uqDelete_fold (seen : List String) :
    ∀ (exs : List UQRec) (db : List UQRec),
      exs.foldl (uqDeleteStep seen) db =
        db.filter (fun r => exs.all (fun ex =>
          seen.contains ex.name || !(ex.id = r.id))) := by
  intro exs
  induction exs with
  | nil => intro db; simp
  | cons ex t ih =>
    intro db
    rw [List.foldl_cons]
    by_cases hc : seen.contains ex.name = true
    · rw [show uqDeleteStep seen db ex = db from by
        unfold uqDeleteStep; rw [if_pos hc], ih]
      apply List.filter_congr
      intro r _
      simp only [List.all_cons, hc, Bool.true_or, Bool.true_and]
    · have hc' : seen.contains ex.name = false := by simpa using hc
      rw [show uqDeleteStep seen db ex =
          db.filter (fun r => !(r.id = ex.id)) from by
        unfold uqDeleteStep; rw [if_neg hc], ih, List.filter_filter]
      apply List.filter_congr
      intro r _
      simp only [List.all_cons, hc', Bool.false_or]
      by_cases hid : r.id = ex.id
      · simp [hid]
      · simp [hid, show ¬ (ex.id = r.id) from fun h => hid h.symm]

/-- C4: after `syncUniversalQualifiers`, the set of stored universal
question names equals exactly the set of names in the input: every input
name is present (upserted) and every previously stored name absent from
the input has been deleted.  The hypothesis is the document-store
invariant that stored record ids are distinct. -/
theorem C4_syncUniversalQualifiers_names (qualifiers : List UQInput)
    (now : Int) (store : List UQRec)
    (hnd : (store.map (fun r => r.id)).Nodup) :
    ∀ n : String,
      (∃ r ∈ syncUniversalQualifiers qualifiers now store, r.name = n) ↔
      (∃ q ∈ qualifiers, q.name = n) := by
  have hinv0 : uqUpsertInv store qualifiers store := by
    refine ⟨fun ex hex => ⟨ex, hex, rfl, rfl⟩, ?_, ?_⟩
    · intro r hr ex hex hid
      have := List.inj_on_of_nodup_map hnd hr hex hid
      rw [this]
    · intro r hr hnone
      exact absurd rfl (hnone r hr)
  have hinvF := uqUpsert_fold_inv store qualifiers now qualifiers
    (fun _ h => h) store hinv0
  intro n
  unfold syncUniversalQualifiers
  dsimp only
  rw [uqDelete_fold]
  constructor
  · rintro ⟨r, hr, hname⟩
    have hmem := List.mem_filter.mp hr
    by_cases hid : ∃ ex ∈ store, r.id = ex.id
    · rcases hid with ⟨ex, hex, hide⟩
      have hall := List.all_eq_true.mp hmem.2 ex hex
      have hcont : (qualifiers.map (fun q => q.name)).contains ex.name = true := by
        simp only [Bool.or_eq_true, Bool.not_eq_true',
          decide_eq_false_iff_not] at hall
        rcases hall with h | h
        · exact h
        · exact absurd hide.symm h
      have hexn : ex.name ∈ qualifiers.map (fun q => q.name) :=
        List.elem_iff.mp hcont
      rcases List.mem_map.mp hexn with ⟨q, hq, hqn⟩
      have hrex : r.name = ex.name := hinvF.2.1 r hmem.1 ex hex hide
      exact ⟨q, hq, by rw [hqn, ← hrex, hname]⟩
    · push_neg at hid
      have := hinvF.2.2 r hmem.1 hid
      rcases this with ⟨q, hq, hqn⟩
      exact ⟨q, hq, by rw [hqn, hname]⟩
  · rintro ⟨q, hq, hname⟩
    rcases uqUpsert_fold_present store qualifiers now qualifiers
      (fun _ h => h) store hinv0 q hq with ⟨r, hr, hrname⟩
    refine ⟨r, List.mem_filter.mpr ⟨hr, ?_⟩, by rw [hrname, hname]⟩
    apply List.all_eq_true.mpr
    intro ex hex
    by_cases hide : ex.id = r.id
    · have hrex : r.name = ex.name := hinvF.2.1 r hr ex hex hide.symm
      have hm : ex.name ∈ qualifiers.map (fun q' => q'.name) :=
        List.mem_map.mpr ⟨q, hq, by rw [hrname] at hrex; rw [← hrex]⟩
      simp only [Bool.or_eq_true]
      exact Or.inl (List.elem_iff.mpr hm)
    · simp [hide]

/-- The C4 witness store: a stale "Old?" and a surviving "Keep?" record. -/
def c4store : List UQRec :=
  [{ id := 3, name := "Old?", options := ["a"], order := 0, lastSynced := 0 },
   { id := 7, name := "Keep?", options := ["b"], order := 1, lastSynced := 0 }]

/-- The C4 witness input: "Keep?" re-appears, "New?" is new, "Old?" gone. -/
def c4inputs : List UQInput :=
  [{ name := "Keep?", options := ["c"], order := 0 },
   { name := "New?", options := ["d"], order := 2 }]

theorem C4_witness :
    (∃ r ∈ syncUniversalQualifiers c4inputs 99 c4store, r.name = "New?") ∧
    ¬ (∃ r ∈ syncUniversalQualifiers c4inputs 99 c4store, r.name = "Old?") :=
  ⟨(C4_syncUniversalQualifiers_names c4inputs 99 c4store (by decide)
      "New?").mpr (by decide),
   fun h => absurd ((C4_syncUniversalQualifiers_names c4inputs 99 c4store
      (by decide) "Old?").mp h) (by decide)⟩

/-! ### C3: universal-qualifier extraction (`parseQualifiersSheet`)

The counting map, the first-occurrence data map, the sort, and the final
assembly of `parseQualifiersSheet` are characterised below; the claim's
"column position of first occurrence" reading of the display order is
refuted and the assessments-list-index reading proved. -/
theorem lookupNat_bump (m : List (String × Nat)) (k k' : String) :
    lookupNat (bumpCount m k) k' =
      lookupNat m k' + (if k' = k then 1 else 0) := by
  induction m with
  | nil =>
    by_cases h : k = k'
    · simp [bumpCount, lookupNat, h]
    · simp [bumpCount, lookupNat, h, show ¬ (k' = k) from fun he => h he.symm]
  | cons p t ih =>
    by_cases hp : p.1 = k
    · by_cases h' : p.1 = k'
      · have hkk : k' = k := by rw [← h', hp]
        simp [bumpCount, lookupNat, hp, h', hkk]
      · have hkk : ¬ (k = k') := fun he => h' (hp.trans he)
        simp [bumpCount, lookupNat, hp, h', hkk,
          show ¬ (k' = k) from fun he => hkk he.symm]
    · by_cases h' : p.1 = k'
      · have hkk : ¬ (k' = k) := fun he => hp (by rw [h', he])
        simp [bumpCount, lookupNat, hp, h', hkk]
      · simp [bumpCount, lookupNat, hp, h', ih]

theorem bump_keys_mem (m : List (String × Nat)) (k a : String) :
    a ∈ (bumpCount m k).map Prod.fst ↔ a ∈ m.map Prod.fst ∨ a = k := by
  induction m with
  | nil => simp [bumpCount, eq_comm]
  | cons p t ih =>
    by_cases hp : p.1 = k
    · simp only [bumpCount, if_pos hp, List.map_cons, List.mem_cons]
      constructor
      · intro h
        rcases h with h | h
        · exact Or.inl (Or.inl h)
        · exact Or.inl (Or.inr h)
      · intro h
        rcases h with (h | h) | h
        · exact Or.inl h
        · exact Or.inr h
        · exact Or.inl (by rw [h, hp])
    · simp only [bumpCount, if_neg hp, List.map_cons, List.mem_cons, ih]
      tauto

theorem bump_keys_nodup (m : List (String × Nat)) (k : String)
    (h : (m.map Prod.fst).Nodup) : ((bumpCount m k).map Prod.fst).Nodup := by
  induction m with
  | nil => simp [bumpCount]
  | cons p t ih =>
    rw [List.map_cons, List.nodup_cons] at h
    by_cases hp : p.1 = k
    · simp only [bumpCount, if_pos hp, List.map_cons, List.nodup_cons]
      exact h
    · simp only [bumpCount, if_neg hp, List.map_cons, List.nodup_cons]
      refine ⟨?_, ih h.2⟩
      intro hmem
      rcases (bump_keys_mem t k p.1).mp hmem with h' | h'
      · exact h.1 h'
      · exact hp h'

theorem bump_values_pos (m : List (String × Nat)) (k : String)
    (h : ∀ p ∈ m, 1 ≤ p.2) : ∀ p ∈ bumpCount m k, 1 ≤ p.2 := by
  induction m with
  | nil =>
    intro p hp
    simp only [bumpCount, List.mem_singleton] at hp
    subst hp
    exact Nat.le_refl 1
  | cons q t ih =>
    intro p hp
    by_cases hq : q.1 = k
    · simp only [bumpCount, if_pos hq, List.mem_cons] at hp
      rcases hp with hp | hp
      · subst hp
        have := h q (List.mem_cons_self q t)
        omega
      · exact h p (List.mem_cons_of_mem q hp)
    · simp only [bumpCount, if_neg hq, List.mem_cons] at hp
      rcases hp with hp | hp
      · subst hp
        exact h p (List.mem_cons_self p t)
      · exact ih (fun p' hp' => h p' (List.mem_cons_of_mem q hp')) p hp

theorem lookupNat_of_mem (m : List (String × Nat)) (p : String × Nat)
    (hnd : (m.map Prod.fst).Nodup) (hp : p ∈ m) : lookupNat m p.1 = p.2 := by
  induction m with
  | nil => simp at hp
  | cons q t ih =>
    rw [List.map_cons, List.nodup_cons] at hnd
    rcases List.mem_cons.mp hp with he | ht
    · subst he
      simp [lookupNat]
    · have hq : ¬ (q.1 = p.1) := by
        intro he
        exact hnd.1 (he ▸ List.mem_map.mpr ⟨p, ht, rfl⟩)
      simp only [lookupNat, if_neg hq]
      exact ih hnd.2 ht

theorem lookupNat_pos_iff_mem_keys (m : List (String × Nat)) (k : String)
    (hpos : ∀ p ∈ m, 1 ≤ p.2) :
    (1 ≤ lookupNat m k ↔ k ∈ m.map Prod.fst) := by
  induction m with
  | nil => simp [lookupNat]
  | cons q t ih =>
    by_cases hq : q.1 = k
    · simp only [lookupNat, if_pos hq, List.map_cons, List.mem_cons]
      constructor
      · intro _; exact Or.inl hq.symm
      · intro _; exact hpos q (List.mem_cons_self q t)
    · simp only [lookupNat, if_neg hq, List.map_cons, List.mem_cons]
      rw [ih (fun p hp => hpos p (List.mem_cons_of_mem q hp))]
      constructor
      · exact Or.inr
      · intro h
        rcases h with h | h
        · exact absurd h.symm hq
        · exact h

theorem lookupNat_bump_fold (k : String) :
    ∀ (L : List String) (m : List (String × Nat)),
      lookupNat (L.foldl bumpCount m) k = lookupNat m k + L.count k := by
  intro L
  induction L with
  | nil => intro m; simp [lookupNat]
  | cons x t ih =>
    intro m
    rw [List.foldl_cons, ih, lookupNat_bump, List.count_cons]
    by_cases h : k = x
    · simp [h]
      omega
    · simp [h, show ¬ (x == k) = true from by simpa using fun he => h he.symm]

theorem dedupFirstAux_mem (x : String) :
    ∀ (l seen : List String),
      x ∈ dedupFirstAux seen l ↔ x ∈ l ∧ x ∉ seen := by
  intro l
  induction l with
  | nil => intro seen; simp [dedupFirstAux]
  | cons a t ih =>
    intro seen
    by_cases ha : seen.contains a = true
    · rw [show dedupFirstAux seen (a :: t) =
        if seen.contains a = true then dedupFirstAux seen t
        else a :: dedupFirstAux (a :: seen) t from rfl, if_pos ha]
      rw [ih]
      constructor
      · intro h
        exact ⟨List.mem_cons_of_mem a h.1, h.2⟩
      · rintro ⟨h1, h2⟩
        rcases List.mem_cons.mp h1 with he | ht
        · exact absurd (he ▸ List.elem_iff.mp ha) h2
        · exact ⟨ht, h2⟩
    · rw [show dedupFirstAux seen (a :: t) =
        if seen.contains a = true then dedupFirstAux seen t
        else a :: dedupFirstAux (a :: seen) t from rfl, if_neg ha]
      rw [List.mem_cons, ih]
      constructor
      · intro h
        rcases h with he | ⟨h1, h2⟩
        · subst he
          exact ⟨List.mem_cons_self x t,
            fun hs => ha (List.elem_iff.mpr hs)⟩
        · exact ⟨List.mem_cons_of_mem a h1,
            fun hs => h2 (List.mem_cons_of_mem a hs)⟩
      · rintro ⟨h1, h2⟩
        rcases List.mem_cons.mp h1 with he | ht
        · exact Or.inl he
        · by_cases hxa : x = a
          · exact Or.inl hxa
          · exact Or.inr ⟨ht, fun hs => by
              rcases List.mem_cons.mp hs with h' | h'
              · exact hxa h'
              · exact h2 h'⟩

theorem dedupFirstAux_nodup :
    ∀ (l seen : List String), (dedupFirstAux seen l).Nodup := by
  intro l
  induction l with
  | nil => intro seen; simp [dedupFirstAux]
  | cons a t ih =>
    intro seen
    by_cases ha : seen.contains a = true
    · rw [show dedupFirstAux seen (a :: t) =
        if seen.contains a = true then dedupFirstAux seen t
        else a :: dedupFirstAux (a :: seen) t from rfl, if_pos ha]
      exact ih seen
    · rw [show dedupFirstAux seen (a :: t) =
        if seen.contains a = true then dedupFirstAux seen t
        else a :: dedupFirstAux (a :: seen) t from rfl, if_neg ha]
      rw [List.nodup_cons]
      refine ⟨?_, ih (a :: seen)⟩
      intro hmem
      exact ((dedupFirstAux_mem a t (a :: seen)).mp hmem).2
        (List.mem_cons_self a seen)

theorem dedupFirst_mem (x : String) (l : List String) :
    x ∈ dedupFirst l ↔ x ∈ l := by
  unfold dedupFirst
  rw [dedupFirstAux_mem]
  simp

theorem dedupFirst_count (k : String) (l : List String) :
    (dedupFirst l).count k = if k ∈ l then 1 else 0 := by
  by_cases h : k ∈ l
  · rw [if_pos h]
    exact List.count_eq_one_of_mem (dedupFirstAux_nodup l [])
      ((dedupFirst_mem k l).mpr h)
  · rw [if_neg h]
    exact List.count_eq_zero_of_not_mem
      (fun hm => h ((dedupFirst_mem k l).mp hm))

theorem counts_lookup (k : String) :
    ∀ (vegs : List VegetableData) (m : List (String × Nat)),
      lookupNat (vegs.foldl (fun m veg =>
        (dedupFirst (veg.assessments.map (fun a => a.name))).foldl
          bumpCount m) m) k =
      lookupNat m k + vegs.countP (fun v => decide (k ∈ qnames v)) := by
  intro vegs
  induction vegs with
  | nil => intro m; simp
  | cons v t ih =>
    intro m
    rw [List.foldl_cons, ih, lookupNat_bump_fold, dedupFirst_count,
      List.countP_cons]
    unfold qnames
    by_cases h : k ∈ v.assessments.map (fun a => a.name)
    · simp [h]
      omega
    · simp [h]

theorem counts_keys_nodup :
    ∀ (vegs : List VegetableData) (m : List (String × Nat)),
      (m.map Prod.fst).Nodup →
      ((vegs.foldl (fun m veg =>
        (dedupFirst (veg.assessments.map (fun a => a.name))).foldl
          bumpCount m) m).map Prod.fst).Nodup := by
  have inner : ∀ (L : List String) (m : List (String × Nat)),
      (m.map Prod.fst).Nodup → ((L.foldl bumpCount m).map Prod.fst).Nodup := by
    intro L
    induction L with
    | nil => intro m h; exact h
    | cons x t ih =>
      intro m h
      rw [List.foldl_cons]
      exact ih _ (bump_keys_nodup m x h)
  intro vegs
  induction vegs with
  | nil => intro m h; exact h
  | cons v t ih =>
    intro m h
    rw [List.foldl_cons]
    exact ih _ (inner _ m h)

theorem counts_values_pos :
    ∀ (vegs : List VegetableData) (m : List (String × Nat)),
      (∀ p ∈ m, 1 ≤ p.2) →
      ∀ p ∈ (vegs.foldl (fun m veg =>
        (dedupFirst (veg.assessments.map (fun a => a.name))).foldl
          bumpCount m) m), 1 ≤ p.2 := by
  have inner : ∀ (L : List String) (m : List (String × Nat)),
      (∀ p ∈ m, 1 ≤ p.2) → ∀ p ∈ L.foldl bumpCount m, 1 ≤ p.2 := by
    intro L
    induction L with
    | nil => intro m h; exact h
    | cons x t ih =>
      intro m h
      rw [List.foldl_cons]
      exact ih _ (bump_values_pos m x h)
  intro vegs
  induction vegs with
  | nil => intro m h; exact h
  | cons v t ih =>
    intro m h
    rw [List.foldl_cons]
    exact ih _ (inner _ m h)

theorem mem_universalNames (data : List (List String))
    (hne : filteredVegetables data ≠ []) (n : String) :
    n ∈ universalNames data ↔
      ∀ v ∈ filteredVegetables data, n ∈ qnames v := by
  unfold universalNames
  have hkeys : ((assessmentCounts (filteredVegetables data)).map
      Prod.fst).Nodup :=
    counts_keys_nodup (filteredVegetables data) [] (by simp)
  have hvals : ∀ p ∈ assessmentCounts (filteredVegetables data), 1 ≤ p.2 :=
    counts_values_pos (filteredVegetables data) [] (by simp)
  have hlook : ∀ k, lookupNat (assessmentCounts (filteredVegetables data)) k =
      (filteredVegetables data).countP (fun v => decide (k ∈ qnames v)) := by
    intro k
    have h := counts_lookup k (filteredVegetables data) []
    simpa [assessmentCounts, lookupNat] using h
  constructor
  · intro h
    rcases List.mem_map.mp h with ⟨p, hpf, hpn⟩
    rcases List.mem_filter.mp hpf with ⟨hpc, hpN⟩
    have hpN' : p.2 = (filteredVegetables data).length :=
      of_decide_eq_true hpN
    have hv : lookupNat (assessmentCounts (filteredVegetables data)) p.1 =
        p.2 := lookupNat_of_mem _ p hkeys hpc
    rw [hlook] at hv
    have hall := List.countP_eq_length.mp (hv.trans hpN')
    intro v hvv
    have := hall v hvv
    rw [hpn] at this
    exact of_decide_eq_true this
  · intro h
    have hcnt : (filteredVegetables data).countP
        (fun v => decide (n ∈ qnames v)) = (filteredVegetables data).length :=
      List.countP_eq_length.mpr (fun v hv => decide_eq_true (h v hv))
    have hpos : 1 ≤ lookupNat (assessmentCounts (filteredVegetables data)) n := by
      rw [hlook, hcnt]
      exact List.length_pos.mpr hne
    have hmemk := (lookupNat_pos_iff_mem_keys _ n hvals).mp hpos
    rcases List.mem_map.mp hmemk with ⟨p, hpc, hpn⟩
    have hval : lookupNat (assessmentCounts (filteredVegetables data)) p.1 =
        p.2 := lookupNat_of_mem _ p hkeys hpc
    refine List.mem_map.mpr ⟨p, List.mem_filter.mpr ⟨hpc, ?_⟩, hpn⟩
    rw [hpn, hlook, hcnt] at hval
    exact decide_eq_true hval.symm

theorem find?_append_left {α : Type} (p : α → Bool) (l₁ l₂ : List α) (a : α)
    (h : l₁.find? p = some a) : (l₁ ++ l₂).find? p = some a := by
  induction l₁ with
  | nil => simp [List.find?] at h
  | cons x t ih =>
    by_cases hx : p x = true
    · rw [List.find?_cons_of_pos _ hx] at h
      rw [List.cons_append, List.find?_cons_of_pos _ hx]
      exact h
    · rw [List.find?_cons_of_neg _ hx] at h
      rw [List.cons_append, List.find?_cons_of_neg _ hx]
      exact ih h

theorem find?_append_right {α : Type} (p : α → Bool) (l₁ l₂ : List α)
    (h : l₁.find? p = none) : (l₁ ++ l₂).find? p = l₂.find? p := by
  induction l₁ with
  | nil => simp
  | cons x t ih =>
    by_cases hx : p x = true
    · rw [List.find?_cons_of_pos _ hx] at h
      exact absurd h (by simp)
    · rw [List.find?_cons_of_neg _ hx] at h
      rw [List.cons_append, List.find?_cons_of_neg _ hx]
      exact ih h

theorem dataInner_find (n : String) :
    ∀ (l : List (Nat × Assessment)) (m : List (String × (List String × Nat))),
      ((l.foldl (fun m ia =>
        if m.any (fun p => p.1 = ia.2.name) then m
        else m ++ [(ia.2.name, (ia.2.options, ia.1))]) m).find?
          (fun p => p.1 = n)) =
      (match m.find? (fun p => p.1 = n) with
        | some p => some p
        | none => (l.find? (fun ia => ia.2.name = n)).map
            (fun ia => (n, (ia.2.options, ia.1)))) := by
  intro l
  induction l with
  | nil =>
    intro m
    cases h : m.find? (fun p => p.1 = n) <;> simp [h]
  | cons ia t ih =>
    intro m
    simp only [List.foldl_cons]
    by_cases hany : (m.any (fun p => p.1 = ia.2.name)) = true
    · rw [if_pos hany, ih]
      cases h : m.find? (fun p => p.1 = n)
      · by_cases hn : ia.2.name = n
        · exfalso
          rcases List.any_eq_true.mp hany with ⟨p, hpm, hp⟩
          have hp' : p.1 = n := (of_decide_eq_true hp).trans hn
          have hs : (m.find? (fun p => p.1 = n)).isSome :=
            List.find?_isSome.mpr ⟨p, hpm, decide_eq_true hp'⟩
          rw [h] at hs
          simp at hs
        · simp [List.find?_cons, hn]
      · simp
    · rw [if_neg hany, ih]
      cases h : m.find? (fun p => p.1 = n)
      · rw [find?_append_right _ _ _ h]
        by_cases hn : ia.2.name = n
        · simp [List.find?_cons, hn]
        · simp [List.find?_cons, hn]
      · rw [find?_append_left _ _ _ _ h]

theorem specFirstOcc_cons_none (n : String) (v : VegetableData)
    (t : List VegetableData)
    (hv : v.assessments.enum.find? (fun ia => ia.2.name = n) = none) :
    specFirstOcc (v :: t) n = specFirstOcc t n := by
  simp [specFirstOcc, List.findSome?_cons, hv]

theorem specFirstOcc_cons_some (n : String) (v : VegetableData)
    (t : List VegetableData) (ia : Nat × Assessment)
    (hv : v.assessments.enum.find? (fun ia => ia.2.name = n) = some ia) :
    specFirstOcc (v :: t) n = some (ia.2.options, ia.1) := by
  simp [specFirstOcc, List.findSome?_cons, hv]

theorem assessmentData_find (n : String) :
    ∀ (vegs : List VegetableData)
      (m : List (String × (List String × Nat))),
      ((vegs.foldl (fun m veg =>
        veg.assessments.enum.foldl (fun m ia =>
          if m.any (fun p => p.1 = ia.2.name) then m
          else m ++ [(ia.2.name, (ia.2.options, ia.1))]) m) m).find?
            (fun p => p.1 = n)) =
      (match m.find? (fun p => p.1 = n) with
        | some p => some p
        | none => (specFirstOcc vegs n).map (fun d => (n, d))) := by
  intro vegs
  induction vegs with
  | nil =>
    intro m
    cases h : m.find? (fun p => p.1 = n) <;> simp [h, specFirstOcc]
  | cons v t ih =>
    intro m
    simp only [List.foldl_cons]
    rw [ih, dataInner_find]
    cases h : m.find? (fun p => p.1 = n)
    · cases hv : v.assessments.enum.find? (fun ia => ia.2.name = n)
      · rw [specFirstOcc_cons_none n v t hv]
        simp
      · rename_i ia
        rw [specFirstOcc_cons_some n v t ia hv]
        simp
    · simp

theorem assessmentData_eq_specFirstOcc (vegs : List VegetableData)
    (n : String) :
    ((assessmentData vegs).find? (fun p => p.1 = n)) =
      (specFirstOcc vegs n).map (fun d => (n, d)) := by
  unfold assessmentData
  rw [assessmentData_find n vegs []]
  simp

theorem exists_mem_enum {α : Type} (P : α → Prop) (l : List α) :
    (∃ ia ∈ l.enum, P ia.2) ↔ ∃ a ∈ l, P a := by
  constructor
  · rintro ⟨ia, hmem, hP⟩
    refine ⟨ia.2, ?_, hP⟩
    have : ia.2 ∈ (l.enum).map Prod.snd := List.mem_map_of_mem Prod.snd hmem
    rwa [List.enum_map_snd] at this
  · rintro ⟨a, hmem, hP⟩
    have : a ∈ (l.enum).map Prod.snd := by rwa [List.enum_map_snd]
    rcases List.mem_map.mp this with ⟨ia, hia, he⟩
    exact ⟨ia, hia, he ▸ hP⟩

theorem specFirstOcc_isSome (n : String) :
    ∀ vegs : List VegetableData,
      (specFirstOcc vegs n).isSome ↔ ∃ v ∈ vegs, n ∈ qnames v := by
  intro vegs
  induction vegs with
  | nil => simp [specFirstOcc]
  | cons v t ih =>
    cases hv : v.assessments.enum.find? (fun ia => ia.2.name = n)
    · have hnotv : ¬ (n ∈ qnames v) := by
        intro hn
        have hex : ∃ a ∈ v.assessments, a.name = n := by
          rcases List.mem_map.mp hn with ⟨a, ha, han⟩
          exact ⟨a, ha, han⟩
        rcases (exists_mem_enum (fun a => a.name = n)
          v.assessments).mpr hex with ⟨ia, hia, hP⟩
        have hs : (v.assessments.enum.find?
            (fun ia => ia.2.name = n)).isSome :=
          List.find?_isSome.mpr ⟨ia, hia, decide_eq_true hP⟩
        rw [hv] at hs
        simp at hs
      rw [specFirstOcc_cons_none n v t hv, ih]
      constructor
      · rintro ⟨w, hw, hn⟩
        exact ⟨w, List.mem_cons_of_mem v hw, hn⟩
      · rintro ⟨w, hw, hn⟩
        rcases List.mem_cons.mp hw with he | ht
        · exact absurd (he ▸ hn) hnotv
        · exact ⟨w, ht, hn⟩
    · rename_i ia
      have hfind := List.find?_some hv
      have hP : ia.2.name = n := of_decide_eq_true hfind
      have hiam : ia ∈ v.assessments.enum := List.mem_of_find?_eq_some hv
      have hnv : n ∈ qnames v := by
        have hex : ∃ a ∈ v.assessments, a.name = n :=
          (exists_mem_enum (fun a => a.name = n) v.assessments).mp
            ⟨ia, hiam, hP⟩
        rcases hex with ⟨a, ha, han⟩
        exact List.mem_map.mpr ⟨a, ha, han⟩
      rw [specFirstOcc_cons_some n v t ia hv]
      simp only [Option.isSome_some]
      constructor
      · intro _
        exact ⟨v, List.mem_cons_self v t, hnv⟩
      · intro _
        trivial

theorem mem_universalsUnsorted (data : List (List String))
    (u : UniversalQualifier) :
    u ∈ universalsUnsorted data ↔
      (u.name ∈ universalNames data ∧
       specFirstOcc (filteredVegetables data) u.name =
         some (u.options, u.order)) := by
  unfold universalsUnsorted
  rw [List.mem_filterMap]
  constructor
  · rintro ⟨p, hpc, hf⟩
    by_cases hN : p.2 = (filteredVegetables data).length
    · rw [if_pos hN] at hf
      rcases Option.map_eq_some'.mp hf with ⟨q, hq, hmk⟩
      have hq' := hq
      rw [assessmentData_eq_specFirstOcc] at hq'
      rcases Option.map_eq_some'.mp hq' with ⟨d, hd, hqd⟩
      have hun : u.name = p.1 := by rw [← hmk]
      have huo : u.options = q.2.1 := by rw [← hmk]
      have hur : u.order = q.2.2 := by rw [← hmk]
      constructor
      · rw [hun]
        exact List.mem_map.mpr ⟨p, List.mem_filter.mpr
          ⟨hpc, decide_eq_true hN⟩, rfl⟩
      · rw [hun, huo, hur, hd, ← hqd]
    · rw [if_neg hN] at hf
      exact absurd hf (by simp)
  · rintro ⟨hn, hs⟩
    rcases List.mem_map.mp hn with ⟨p, hpf, hpn⟩
    rcases List.mem_filter.mp hpf with ⟨hpc, hN⟩
    refine ⟨p, hpc, ?_⟩
    rw [if_pos (of_decide_eq_true hN), hpn,
      assessmentData_eq_specFirstOcc, hs]
    rfl

theorem filterMap_names_nodup {α β : Type} (key : α → String)
    (nm : β → String) (f : α → Option β)
    (hf : ∀ a b, f a = some b → nm b = key a) :
    ∀ l : List α, (l.map key).Nodup → ((l.filterMap f).map nm).Nodup := by
  intro l
  induction l with
  | nil => simp
  | cons a t ih =>
    intro h
    rw [List.map_cons, List.nodup_cons] at h
    cases hfa : f a
    · rw [List.filterMap_cons_none hfa]
      exact ih h.2
    · rename_i b
      rw [List.filterMap_cons_some hfa, List.map_cons, List.nodup_cons]
      refine ⟨?_, ih h.2⟩
      intro hmem
      rcases List.mem_map.mp hmem with ⟨b', hb', he⟩
      rcases List.mem_filterMap.mp hb' with ⟨a', ha', hfa'⟩
      have h1 : nm b = key a := hf a b hfa
      have h2 : nm b' = key a' := hf a' b' hfa'
      have : key a ∈ t.map key :=
        List.mem_map.mpr ⟨a', ha', by rw [← h2, he, h1]⟩
      exact h.1 this

theorem insertSorted_perm {α : Type} (le : α → α → Bool) (a : α) :
    ∀ l : List α, (insertSorted le a l).Perm (a :: l) := by
  intro l
  induction l with
  | nil => simp [insertSorted]
  | cons b t ih =>
    rw [show insertSorted le a (b :: t) =
      if le a b = true then a :: b :: t else b :: insertSorted le a t
      from rfl]
    by_cases hab : le a b = true
    · rw [if_pos hab]
    · rw [if_neg hab]
      exact (List.Perm.cons b ih).trans (List.Perm.swap a b t)

theorem stableSortBy_perm {α : Type} (le : α → α → Bool) :
    ∀ l : List α, (stableSortBy le l).Perm l := by
  intro l
  induction l with
  | nil => simp [stableSortBy]
  | cons a t ih =>
    unfold stableSortBy at ih ⊢
    rw [List.foldr_cons]
    exact (insertSorted_perm le a _).trans (List.Perm.cons a ih)

theorem insertSorted_pairwise {α : Type} (le : α → α → Bool)
    (htot : ∀ a b, le a b = true ∨ le b a = true)
    (htrans : ∀ a b c, le a b = true → le b c = true → le a c = true)
    (a : α) :
    ∀ l : List α, l.Pairwise (fun x y => le x y = true) →
      (insertSorted le a l).Pairwise (fun x y => le x y = true) := by
  intro l
  induction l with
  | nil =>
    intro _
    simp [insertSorted]
  | cons b t ih =>
    intro h
    rw [List.pairwise_cons] at h
    rw [show insertSorted le a (b :: t) =
      if le a b = true then a :: b :: t else b :: insertSorted le a t
      from rfl]
    by_cases hab : le a b = true
    · rw [if_pos hab]
      rw [List.pairwise_cons]
      refine ⟨?_, List.pairwise_cons.mpr h⟩
      intro y hy
      rcases List.mem_cons.mp hy with he | ht
      · rw [he]
        exact hab
      · exact htrans a b y hab (h.1 y ht)
    · rw [if_neg hab]
      have hba : le b a = true := (htot a b).resolve_left hab
      rw [List.pairwise_cons]
      refine ⟨?_, ih h.2⟩
      intro y hy
      rcases (mem_insertSorted le a y t).mp hy with he | ht
      · rw [he]
        exact hba
      · exact h.1 y ht

theorem stableSortBy_pairwise {α : Type} (le : α → α → Bool)
    (htot : ∀ a b, le a b = true ∨ le b a = true)
    (htrans : ∀ a b c, le a b = true → le b c = true → le a c = true) :
    ∀ l : List α,
      (stableSortBy le l).Pairwise (fun x y => le x y = true) := by
  intro l
  induction l with
  | nil => simp [stableSortBy]
  | cons a t ih =>
    unfold stableSortBy at ih ⊢
    rw [List.foldr_cons]
    exact insertSorted_pairwise le htot htrans a _ ih

theorem parseQualifiersSheet_eq (data : List (List String))
    (hne : filteredVegetables data ≠ []) :
    parseQualifiersSheet data =
      { vegetables := (filteredVegetables data).map (fun v =>
          { v with assessments := v.assessments.filter (fun a =>
              !(universalNames data).contains a.name) }),
        universalQualifiers :=
          stableSortBy (fun a b => decide (a.order ≤ b.order))
            (universalsUnsorted data) } := by
  have hd0 : ¬ data.length = 0 := by
    intro h0
    have hd : data = [] := List.length_eq_zero.mp h0
    subst hd
    exact hne (by decide)
  have hflen : (filteredVegetables data).length > 0 :=
    List.length_pos.mpr hne
  unfold parseQualifiersSheet
  rw [if_neg hd0]
  dsimp only
  rw [if_pos hflen]

/-- A grid whose first header row has a non-question cell between the crop
name and the question: "Q?" sits at grid column 2 but at index 0 of the
parsed assessment list. -/
def c3grid : List (List String) :=
  [["V1", "", "Q?"], ["", "- o1"], ["V2", "Q?"], ["", "- o2"]]

/-- **C3** (counterexample).  The claim says a universal qualifier carries
"the column position of its first occurrence" as its display order.  On
`c3grid` the sole universal question "Q?" first occurs at grid column 2 of
its header row (`["V1", "", "Q?"]`), yet the parser returns order 0 — the
index of "Q?" within the parsed assessments list (the blank cell at column 1
never becomes a question, so indices shift).  Order 0 matches neither the
0-based column (2) nor a column-B-based count (1). -/
theorem C3_counterexample :
    (parseQualifiersSheet c3grid).universalQualifiers =
      [{ name := "Q?", options := ["o1"], order := 0 }] ∧
    c3grid.headD [] = ["V1", "", "Q?"] ∧
    (0 : Nat) ≠ 2 ∧ (0 : Nat) ≠ 1 := by decide

/-- **C3** (amended).  For every grid with at least one surviving crop
entry: (i) a question name is universal iff it occurs in the question-name
set of every surviving crop entry; (ii) every universal question is removed
from every returned crop entry's assessment list; (iii) the returned
universal qualifiers have pairwise-distinct names and (iv) their name set
is exactly the universal names, so each appears exactly once; (v) each
universal qualifier's options and order come from the first surviving crop
entry mentioning the name, the order being the index of the question within
THAT ENTRY'S assessments list (not the raw grid column position); and
(vi) the universalQualifiers list is sorted by order ascending. -/
theorem C3_universal_qualifiers (data : List (List String))
    (hne : filteredVegetables data ≠ []) :
    (∀ n : String, n ∈ universalNames data ↔
      ∀ v ∈ filteredVegetables data, n ∈ qnames v) ∧
    (∀ v ∈ (parseQualifiersSheet data).vegetables,
      ∀ a ∈ v.assessments, a.name ∉ universalNames data) ∧
    (((parseQualifiersSheet data).universalQualifiers.map
        (fun u => u.name)).Nodup) ∧
    (∀ n : String,
      (∃ u ∈ (parseQualifiersSheet data).universalQualifiers, u.name = n) ↔
      n ∈ universalNames data) ∧
    (∀ u ∈ (parseQualifiersSheet data).universalQualifiers,
      specFirstOcc (filteredVegetables data) u.name =
        some (u.options, u.order)) ∧
    ((parseQualifiersSheet data).universalQualifiers.Pairwise
      (fun a b => a.order ≤ b.order)) := by
  have heq := parseQualifiersSheet_eq data hne
  refine ⟨mem_universalNames data hne, ?_, ?_, ?_, ?_, ?_⟩
  · intro v hv a ha
    rw [heq] at hv
    dsimp only at hv
    rcases List.mem_map.mp hv with ⟨w, hw, hvw⟩
    rw [← hvw] at ha
    rcases List.mem_filter.mp ha with ⟨_, hpred⟩
    rw [Bool.not_eq_true'] at hpred
    intro hnm
    rw [List.contains, List.elem_iff.mpr hnm] at hpred
    exact Bool.noConfusion hpred
  · rw [heq]
    dsimp only
    have hperm : ((stableSortBy (fun a b => decide (a.order ≤ b.order))
        (universalsUnsorted data)).map (fun u => u.name)).Perm
        ((universalsUnsorted data).map (fun u => u.name)) :=
      List.Perm.map _ (stableSortBy_perm _ _)
    rw [List.Perm.nodup_iff hperm]
    unfold universalsUnsorted
    refine filterMap_names_nodup Prod.fst
      (fun (u : UniversalQualifier) => u.name) _ ?_ _
      (counts_keys_nodup (filteredVegetables data) [] (by simp))
    intro p u hf
    by_cases hN : p.2 = (filteredVegetables data).length
    · rw [if_pos hN] at hf
      rcases Option.map_eq_some'.mp hf with ⟨q, _, hmk⟩
      rw [← hmk]
    · rw [if_neg hN] at hf
      exact absurd hf (by simp)
  · intro n
    constructor
    · rintro ⟨u, hu, hun⟩
      rw [heq] at hu
      dsimp only at hu
      have hmem := (mem_stableSortBy _ u _).mp hu
      have h := (mem_universalsUnsorted data u).mp hmem
      rw [hun] at h
      exact h.1
    · intro hn
      rcases List.exists_mem_of_ne_nil _ hne with ⟨v0, hv0⟩
      have hall := (mem_universalNames data hne n).mp hn
      have hs : (specFirstOcc (filteredVegetables data) n).isSome :=
        (specFirstOcc_isSome n _).mpr ⟨v0, hv0, hall v0 hv0⟩
      rcases Option.isSome_iff_exists.mp hs with ⟨d, hd⟩
      have hmem : (⟨n, d.1, d.2⟩ : UniversalQualifier) ∈
          universalsUnsorted data :=
        (mem_universalsUnsorted data ⟨n, d.1, d.2⟩).mpr ⟨hn, by rw [hd]⟩
      refine ⟨⟨n, d.1, d.2⟩, ?_, rfl⟩
      rw [heq]
      dsimp only
      exact (mem_stableSortBy _ _ _).mpr hmem
  · intro u hu
    rw [heq] at hu
    dsimp only at hu
    exact ((mem_universalsUnsorted data u).mp
      ((mem_stableSortBy _ u _).mp hu)).2
  · rw [heq]
    dsimp only
    have hp := stableSortBy_pairwise
      (fun (a b : UniversalQualifier) => decide (a.order ≤ b.order))
      (fun a b => by
        rcases le_total a.order b.order with h | h
        · exact Or.inl (decide_eq_true h)
        · exact Or.inr (decide_eq_true h))
      (fun a b c hab hbc =>
        decide_eq_true ((of_decide_eq_true hab).trans
          (of_decide_eq_true hbc)))
      (universalsUnsorted data)
    exact hp.imp (fun h => of_decide_eq_true h)

/-- Witness for C3: on `c3grid` both hypotheses and two conclusions are
checked concretely — "Q?" is universal, and its first occurrence carries
options `["o1"]` and order 0. -/
theorem C3_witness :
    specFirstOcc (filteredVegetables c3grid) "Q?" = some (["o1"], 0) ∧
    ("Q?" ∈ universalNames c3grid) :=
  ⟨(C3_universal_qualifiers c3grid (by decide)).2.2.2.2.1
      ⟨"Q?", ["o1"], 0⟩ (by decide),
    ((C3_universal_qualifiers c3grid (by decide)).1 "Q?").mpr (by decide)⟩
